import Mathlib

/-!
Verification of the stash backend run-orchestration core
(`stash_backend/orchestrator.py`, `codex.py`, `planner.py`, `db.py`,
`runtime_config.py`, `utils.py`) against its natural-language specification.

The Python code is shallowly embedded: pure helpers become Lean functions,
filesystem- and database-touching code becomes explicit state passing or
operation traces, fallible code returns `Option`/`Except`.  Machine text is
modelled over `List Char`; commands are ASCII shell strings, so `Char.toLower`
coincides with Python `str.lower` on the relevant domain.
-/

namespace Stash

/-- Python regex class `\s` restricted to ASCII (space, tab, newline,
carriage return, vertical tab, form feed).  Used by `REDIRECT_TOKEN_RE`
and `OUTPUT_FLAG_TOKEN_RE` matching. -/
def isPySpace (c : Char) : Bool :=
  c = ' ' || c = '\t' || c = '\n' || c = '\r' || c = Char.ofNat 11 || c = Char.ofNat 12

/-- The whitespace characters of Python `shlex` (`shlex.whitespace`). -/
def isShlexSpace (c : Char) : Bool :=
  c = ' ' || c = '\t' || c = '\r' || c = '\n'

/-- Single-quote character (spelled via code point). -/
def squoteChar : Char := Char.ofNat 39

/-- Double-quote character (spelled via code point). -/
def dquoteChar : Char := Char.ofNat 34

/-- Backtick character (spelled via code point). -/
def backtickChar : Char := Char.ofNat 96

/-- Backslash, the `shlex` escape character. -/
def escapeChar : Char := '\\'

/-- Python `str.lower` on the ASCII command domain. -/
def lowerStr (s : String) : String := String.mk (s.data.map Char.toLower)

/-- Does `pat` occur as a contiguous substring of `s` (Python `in`)? -/
def containsSub (s pat : List Char) : Bool :=
  (s.tails).any (fun t => pat.isPrefixOf t)

/-- States of the `shlex` posix lexer (`whitespace_split=True`, no
commenters, no punctuation chars): between tokens, inside a word,
inside a single/double quote, after the escape char in a word, after
the escape char inside a double quote. -/
inductive ShState where
  | ws | word | squote | dquote | escWord | escDquote
deriving DecidableEq

/-- One shot of Python `shlex.split(s, posix=True)` as a state machine over
the remaining characters.  `tok` is the token accumulated so far, `quoted`
records whether the current token touched a quote (so that empty quoted
tokens are emitted), `acc` the finished tokens.  `none` models the
`ValueError` raised on an unclosed quotation or a trailing escape char. -/
def shlexLoop : List Char → ShState → List Char → Bool → List String → Option (List String)
  | [], .ws, _, _, acc => some acc
  | [], .word, tok, _, acc => some (acc ++ [String.mk tok])
  | [], .squote, _, _, _ => none
  | [], .dquote, _, _, _ => none
  | [], .escWord, _, _, _ => none
  | [], .escDquote, _, _, _ => none
  | c :: rest, .ws, tok, _, acc =>
    if isShlexSpace c then shlexLoop rest .ws tok false acc
    else if c = squoteChar then shlexLoop rest .squote [] true acc
    else if c = dquoteChar then shlexLoop rest .dquote [] true acc
    else if c = escapeChar then shlexLoop rest .escWord [] false acc
    else shlexLoop rest .word [c] false acc
  | c :: rest, .word, tok, quoted, acc =>
    if isShlexSpace c then shlexLoop rest .ws [] false (acc ++ [String.mk tok])
    else if c = squoteChar then shlexLoop rest .squote tok true acc
    else if c = dquoteChar then shlexLoop rest .dquote tok true acc
    else if c = escapeChar then shlexLoop rest .escWord tok quoted acc
    else shlexLoop rest .word (tok ++ [c]) quoted acc
  | c :: rest, .squote, tok, quoted, acc =>
    if c = squoteChar then shlexLoop rest .word tok quoted acc
    else shlexLoop rest .squote (tok ++ [c]) quoted acc
  | c :: rest, .dquote, tok, quoted, acc =>
    if c = dquoteChar then shlexLoop rest .word tok quoted acc
    else if c = escapeChar then shlexLoop rest .escDquote tok quoted acc
    else shlexLoop rest .dquote (tok ++ [c]) quoted acc
  | c :: rest, .escWord, tok, quoted, acc =>
    shlexLoop rest .word (tok ++ [c]) quoted acc
  | c :: rest, .escDquote, tok, quoted, acc =>
    -- Inside double quotes the escape char is literal unless it precedes
    -- the quote char or another escape char (shlex `escapedquotes`).
    if c = dquoteChar || c = escapeChar then shlexLoop rest .dquote (tok ++ [c]) quoted acc
    else shlexLoop rest .dquote (tok ++ [escapeChar, c]) quoted acc

/-- Python `shlex.split(s, posix=True)`; `none` on `ValueError`. -/
def shlexSplit (s : String) : Option (List String) :=
  shlexLoop s.data .ws [] false []

example : shlexSplit "cat notes.txt" = some ["cat", "notes.txt"] := by decide
example : shlexSplit "" = some [] := by decide

/-- Characters allowed in the regex class `[^\s'"` + `]` shared by
`REDIRECT_TOKEN_RE` and `OUTPUT_FLAG_TOKEN_RE`. -/
def classOkChar (c : Char) : Bool :=
  !(isPySpace c || c = squoteChar || c = dquoteChar || c = backtickChar)

/-- Does the regex fragment matching an optional quote, one or more
class characters, and the matching closing quote via a backreference
match at the head of `cs` (trailing characters unconstrained)?  Since a
quote character can never occur inside the character class, the greedy
and the backtracking readings agree: a quoted body succeeds exactly when
the maximal class run is nonempty and is followed by the opening quote. -/
def quoteBody (cs : List Char) : Bool :=
  match cs with
  | [] => false
  | c :: rest =>
    if c = squoteChar || c = dquoteChar then
      let body := rest.takeWhile classOkChar
      !body.isEmpty &&
        (match rest.drop body.length with
         | d :: _ => d = c
         | [] => false)
    else classOkChar c

/-- The part of `REDIRECT_TOKEN_RE` after the redirect operator:
optional whitespace, then the quoted-body fragment. -/
def afterRedirect (cs : List Char) : Bool :=
  quoteBody (cs.dropWhile isPySpace)

/-- Does one of the redirect operators of `REDIRECT_TOKEN_RE`
followed by its argument match at the head of `cs`? -/
def redirHead (cs : List Char) : Bool :=
  match cs with
  | [] => false
  | c :: rest =>
    if c = '>' then
      afterRedirect rest ||
        (match rest with
         | c2 :: rest2 => c2 = '>' && afterRedirect rest2
         | [] => false)
    else if c = '1' || c = '2' then
      match rest with
      | c2 :: rest2 => c2 = '>' && afterRedirect rest2
      | [] => false
    else false

/-- Scan for `REDIRECT_TOKEN_RE` at every position; the flag records the
zero-width precondition coming from the alternation of start-of-string
and a whitespace character. -/
def redirAux : Bool → List Char → Bool
  | _, [] => false
  | atBoundary, c :: rest =>
    (atBoundary && redirHead (c :: rest)) || redirAux (isPySpace c) rest

/-- Python `REDIRECT_TOKEN_RE.search(command_text)` as a Boolean. -/
def redirectMatch (s : String) : Bool :=
  redirAux true s.data

/-- The output-flag spellings of `OUTPUT_FLAG_TOKEN_RE` (matched
case-insensitively). -/
def outputFlagSpellings : List String := ["--output", "--out", "--file", "-o"]

/-- The part of `OUTPUT_FLAG_TOKEN_RE` after the flag: one or more
whitespace characters, then the quoted-body fragment. -/
def afterFlag (cs : List Char) : Bool :=
  match cs with
  | [] => false
  | c :: _ => isPySpace c && quoteBody (cs.dropWhile isPySpace)

/-- Does one of the output flags followed by its argument match at the
head of the (already lowercased) characters? -/
def flagHead (cs : List Char) : Bool :=
  outputFlagSpellings.any (fun p => p.data.isPrefixOf cs && afterFlag (cs.drop p.data.length))

/-- Scan for `OUTPUT_FLAG_TOKEN_RE` at every position. -/
def outputFlagAux : List Char → Bool
  | [] => false
  | c :: rest => flagHead (c :: rest) || outputFlagAux rest

/-- Python `OUTPUT_FLAG_TOKEN_RE.search(command_text)` as a Boolean
(the pattern carries `re.IGNORECASE`, modelled by lowercasing). -/
def outputFlagMatch (s : String) : Bool :=
  outputFlagAux (s.data.map Char.toLower)

/-- `orchestrator.READ_ONLY_PARALLEL_PREFIXES`. -/
def READ_ONLY_PARALLEL_PREFIXES : List String :=
  ["cat", "ls", "pwd", "find", "grep", "sed", "awk", "git"]

/-- `orchestrator.READ_ONLY_GIT_SUBCOMMANDS`. -/
def READ_ONLY_GIT_SUBCOMMANDS : List String :=
  ["status", "show", "log", "diff", "branch", "rev-parse", "ls-files"]

/-- `orchestrator.UNSAFE_SHELL_MARKERS`. -/
def UNSAFE_SHELL_MARKERS : List String :=
  ["&&", "||", ";", "|", String.mk [backtickChar], "$(", "\n"]

/-- `RunOrchestrator._is_parallel_read_command`.  The Python locals
`lowered` and `head` are inlined as `lowerStr s` and `lowerStr t0`. -/
def isParallelReadCommand (s : String) : Bool :=
  if UNSAFE_SHELL_MARKERS.any (fun m => containsSub (lowerStr s).data m.data) then false
  else if redirectMatch s then false
  else if outputFlagMatch s then false
  else
    match shlexSplit s with
    | none => false
    | some [] => false
    | some (t0 :: rest) =>
      if !(READ_ONLY_PARALLEL_PREFIXES.contains (lowerStr t0)) then false
      else if lowerStr t0 = "sed" then
        !(rest.any (fun tok => tok = "-i" || "-i".data.isPrefixOf tok.data))
      else if lowerStr t0 = "find" then
        !(rest.any (fun tok => tok = "-delete" || tok = "-exec" || tok = "-ok"))
      else if lowerStr t0 = "git" then
        match rest with
        | [] => false
        | sub :: _ => READ_ONLY_GIT_SUBCOMMANDS.contains (lowerStr sub)
      else true

example : isParallelReadCommand "cat notes.txt" = true := by decide
example : isParallelReadCommand "git status" = true := by decide
example : isParallelReadCommand "git push origin" = false := by decide
example : isParallelReadCommand "sed -i s/a/b/ file.txt" = false := by decide
example : isParallelReadCommand "ls > out.txt" = false := by decide
example : isParallelReadCommand "grep -o pat file.txt" = false := by decide
example : isParallelReadCommand "find . -delete" = false := by decide
example : isParallelReadCommand "touch a" = false := by decide
example : isParallelReadCommand "cat a && cat b" = false := by decide

/-- C9: the classifier accepts a command only under the frozen list of
necessary conditions (no shell composition/substitution markers, no
redirect or output-flag pattern, allowlisted first token, and the
per-program restrictions for `sed`, `find` and `git`). -/
theorem parallelRead_sound (s : String) (h : isParallelReadCommand s = true) :
    (∀ m ∈ UNSAFE_SHELL_MARKERS, containsSub (lowerStr s).data m.data = false) ∧
    redirectMatch s = false ∧
    outputFlagMatch s = false ∧
    ∃ t0 rest, shlexSplit s = some (t0 :: rest) ∧
      lowerStr t0 ∈ READ_ONLY_PARALLEL_PREFIXES ∧
      (lowerStr t0 = "sed" → ∀ tok ∈ rest, "-i".data.isPrefixOf tok.data = false) ∧
      (lowerStr t0 = "find" →
        ∀ tok ∈ rest, tok ≠ "-delete" ∧ tok ≠ "-exec" ∧ tok ≠ "-ok") ∧
      (lowerStr t0 = "git" →
        ∃ sub tl, rest = sub :: tl ∧ lowerStr sub ∈ READ_ONLY_GIT_SUBCOMMANDS) := by
  unfold isParallelReadCommand at h
  split at h
  · exact absurd h (by decide)
  next hmark =>
    split at h
    · exact absurd h (by decide)
    next hredir =>
      split at h
      · exact absurd h (by decide)
      next hflag =>
        refine ⟨?_, by simpa using hredir, by simpa using hflag, ?_⟩
        · intro m hm
          have hall : (UNSAFE_SHELL_MARKERS.any
              fun m => containsSub (lowerStr s).data m.data) = false := by
            simpa using hmark
          rw [List.any_eq_false] at hall
          simpa using hall m hm
        · split at h
          · exact absurd h (by decide)
          · exact absurd h (by decide)
          next t0 rest heq =>
            refine ⟨t0, rest, heq, ?_⟩
            split at h
            next hmem => exact absurd h (by decide)
            next hmem =>
              have hmem' : lowerStr t0 ∈ READ_ONLY_PARALLEL_PREFIXES := by
                have : READ_ONLY_PARALLEL_PREFIXES.contains (lowerStr t0) = true := by
                  cases hc : READ_ONLY_PARALLEL_PREFIXES.contains (lowerStr t0)
                  · rw [hc] at hmem; simp at hmem
                  · rfl
                exact List.mem_of_elem_eq_true this
              refine ⟨hmem', ?_⟩
              split at h
              next hsed =>
                refine ⟨?_, ?_, ?_⟩
                · intro _ tok htok
                  have hany : rest.any
                      (fun tok => tok = "-i" || "-i".data.isPrefixOf tok.data) = false := by
                    simpa using h
                  rw [List.any_eq_false] at hany
                  have htk := hany tok htok
                  cases hpref : List.isPrefixOf "-i".data tok.data
                  · rfl
                  · rw [hpref] at htk; simp at htk
                · intro hfind
                  exact absurd (hsed.symm.trans hfind) (by decide)
                · intro hgit
                  exact absurd (hsed.symm.trans hgit) (by decide)
              next hnsed =>
                split at h
                next hfind =>
                  refine ⟨fun hsed => absurd hsed hnsed, ?_, ?_⟩
                  · intro _ tok htok
                    have hany : rest.any
                        (fun tok => tok = "-delete" || tok = "-exec" || tok = "-ok")
                          = false := by
                      simpa using h
                    rw [List.any_eq_false] at hany
                    have htk := hany tok htok
                    refine ⟨?_, ?_, ?_⟩ <;> intro he <;> rw [he] at htk <;> simp at htk
                  · intro hgit
                    exact absurd (hfind.symm.trans hgit) (by decide)
                next hnfind =>
                  split at h
                  next hgit =>
                    refine ⟨fun hsed => absurd hsed hnsed,
                      fun hfind => absurd hfind hnfind, ?_⟩
                    intro _
                    match rest, h with
                    | sub :: tl, h =>
                      exact ⟨sub, tl, rfl, List.mem_of_elem_eq_true (by simpa using h)⟩
                  next hngit =>
                    exact ⟨fun hsed => absurd hsed hnsed,
                      fun hfind => absurd hfind hnfind,
                      fun hgit => absurd hgit hngit⟩

/-- C9 witness: the theorem applied to the concrete command
`cat notes.txt`, whose classification is computed by evaluation. -/
theorem parallelRead_sound_witness :
    isParallelReadCommand "cat notes.txt" = true ∧
    ((∀ m ∈ UNSAFE_SHELL_MARKERS,
        containsSub (lowerStr "cat notes.txt").data m.data = false) ∧
     redirectMatch "cat notes.txt" = false ∧
     outputFlagMatch "cat notes.txt" = false ∧
     ∃ t0 rest, shlexSplit "cat notes.txt" = some (t0 :: rest) ∧
       lowerStr t0 ∈ READ_ONLY_PARALLEL_PREFIXES ∧
       (lowerStr t0 = "sed" → ∀ tok ∈ rest, "-i".data.isPrefixOf tok.data = false) ∧
       (lowerStr t0 = "find" →
         ∀ tok ∈ rest, tok ≠ "-delete" ∧ tok ≠ "-exec" ∧ tok ≠ "-ok") ∧
       (lowerStr t0 = "git" →
         ∃ sub tl, rest = sub :: tl ∧ lowerStr sub ∈ READ_ONLY_GIT_SUBCOMMANDS)) :=
  ⟨by decide, parallelRead_sound "cat notes.txt" (by decide)⟩

/-! ## Scheduler (`RunOrchestrator._execute_run`, command loop)

The pointer-walk over `indexed_commands` is embedded as a function from the
indexed command list to the list of executed batches: a maximal consecutive
run of safe parallel reads forms one batch when parallel execution is
enabled; every other command forms a singleton batch.  `await asyncio.gather`
is modelled by the batch-sequential timing predicate `batchSeqB`: all steps
of a batch finish before any step of a later batch starts. -/

/-- Python `enumerate(plan.commands, start=1)`. -/
def indexFrom (n : Nat) : List String → List (Nat × String)
  | [] => []
  | c :: rest => (n, c) :: indexFrom (n + 1) rest

/-- The scheduling loop of `_execute_run`: batches in execution order. -/
def scheduleBatches (enabled : Bool) : List (Nat × String) → List (List (Nat × String))
  | [] => []
  | (i, c) :: rest =>
    if enabled && isParallelReadCommand c then
      ((i, c) :: rest.takeWhile (fun p => isParallelReadCommand p.2)) ::
        scheduleBatches enabled (rest.dropWhile (fun p => isParallelReadCommand p.2))
    else
      [(i, c)] :: scheduleBatches enabled rest
  termination_by l => l.length
  decreasing_by
  · simpa [Nat.lt_succ_iff] using
      (List.dropWhile_sublist (l := rest)
        (fun p : Nat × String => isParallelReadCommand p.2)).length_le
  · simp

/-- A timing assignment `t` maps a step index to its (start, finish)
wall-clock interval.  `batchSeqB` states what awaiting each batch before
starting the next one guarantees: every step of a batch finishes no later
than any step of a later batch starts. -/
def batchSeqB (t : Nat → Nat × Nat) : List (List (Nat × String)) → Bool
  | [] => true
  | b :: rest =>
    (b.all fun p => (rest.flatten).all fun q => decide ((t p.1).2 ≤ (t q.1).1)) &&
      batchSeqB t rest

/-- Two closed-open execution windows overlap in time. -/
def overlapsB (a b : Nat × Nat) : Bool :=
  decide (a.1 < b.2) && decide (b.1 < a.2)

/-- Every all-safe batch is maximal: the next batch starts with a command
that breaks the safe-read classification. -/
def batchesMaximalB : List (List (Nat × String)) → Bool
  | [] => true
  | [_] => true
  | b :: b2 :: rest =>
    (!(b.all fun p => isParallelReadCommand p.2) ||
      (match b2 with
       | q :: _ => !isParallelReadCommand q.2
       | [] => true)) && batchesMaximalB (b2 :: rest)

/-- `max(1, min(int(w), 8))` from the scheduling loop. -/
def maxWorkersClamp (w : Int) : Int := max 1 (min w 8)

/-- The `RuntimeConfig` dataclass fields consumed by the scheduler,
with their dataclass defaults. -/
structure RuntimeConfigSched where
  execution_parallel_reads_enabled : Bool := true
  execution_parallel_reads_max_workers : Int := 3

/-- Dataclass defaults of `runtime_config.RuntimeConfig`. -/
def defaultRuntimeConfigSched : RuntimeConfigSched := {}

theorem scheduleBatches_flatten (enabled : Bool) :
    ∀ l, (scheduleBatches enabled l).flatten = l := by
  intro l
  induction l using scheduleBatches.induct enabled with
  | case1 => simp [scheduleBatches]
  | case2 i c rest hsafe ih =>
    rw [scheduleBatches, if_pos hsafe]
    simp only [List.flatten_cons, ih]
    simp [List.takeWhile_append_dropWhile]
  | case3 i c rest hsafe ih =>
    rw [scheduleBatches, if_neg hsafe]
    simp [ih]

theorem scheduleBatches_ne_nil (enabled : Bool) :
    ∀ l, ∀ b ∈ scheduleBatches enabled l, b ≠ [] := by
  intro l
  induction l using scheduleBatches.induct enabled with
  | case1 => simp [scheduleBatches]
  | case2 i c rest hsafe ih =>
    rw [scheduleBatches, if_pos hsafe]
    intro b hb
    rcases List.mem_cons.mp hb with h | h
    · simp [h]
    · exact ih b h
  | case3 i c rest hsafe ih =>
    rw [scheduleBatches, if_neg hsafe]
    intro b hb
    rcases List.mem_cons.mp hb with h | h
    · simp [h]
    · exact ih b h

theorem scheduleBatches_unsafe_singleton (enabled : Bool) :
    ∀ l, ∀ b ∈ scheduleBatches enabled l, ∀ p ∈ b,
      isParallelReadCommand p.2 = false → b = [p] := by
  intro l
  induction l using scheduleBatches.induct enabled with
  | case1 => simp [scheduleBatches]
  | case2 i c rest hsafe ih =>
    rw [scheduleBatches, if_pos hsafe]
    intro b hb p hp hunsafe
    rcases List.mem_cons.mp hb with h | h
    · exfalso
      subst h
      rcases List.mem_cons.mp hp with h | h
      · subst h
        simp only [Bool.and_eq_true] at hsafe
        simp [hsafe.2] at hunsafe
      · have := List.mem_takeWhile_imp h
        rw [this] at hunsafe
        simp at hunsafe
    · exact ih b h p hp hunsafe
  | case3 i c rest hsafe ih =>
    rw [scheduleBatches, if_neg hsafe]
    intro b hb p hp hunsafe
    rcases List.mem_cons.mp hb with h | h
    · subst h
      rcases List.mem_cons.mp hp with h | h
      · rw [h]
      · simp at h
    · exact ih b h p hp hunsafe

theorem scheduleBatches_head_eq (enabled : Bool) :
    ∀ l b bs, scheduleBatches enabled l = b :: bs → ∃ p l', l = p :: l' ∧ ∃ b', b = p :: b' := by
  intro l
  induction l using scheduleBatches.induct enabled with
  | case1 => intro b bs h; rw [scheduleBatches] at h; cases h
  | case2 i c rest hsafe ih =>
    intro b bs h
    rw [scheduleBatches, if_pos hsafe] at h
    obtain ⟨h1, _⟩ := List.cons.inj h
    exact ⟨(i, c), rest, rfl, _, h1.symm⟩
  | case3 i c rest hsafe ih =>
    intro b bs h
    rw [scheduleBatches, if_neg hsafe] at h
    obtain ⟨h1, _⟩ := List.cons.inj h
    exact ⟨(i, c), rest, rfl, _, h1.symm⟩

theorem dropWhile_head_false {α : Type} (p : α → Bool) :
    ∀ (l : List α) (x : α) (xs : List α), l.dropWhile p = x :: xs → p x = false := by
  intro l
  induction l with
  | nil => intro x xs h; cases h
  | cons a l ih =>
    intro x xs h
    rw [List.dropWhile_cons] at h
    by_cases ha : p a
    · rw [if_pos ha] at h; exact ih x xs h
    · rw [if_neg ha] at h
      obtain ⟨h1, _⟩ := List.cons.inj h
      rw [← h1]
      exact Bool.of_not_eq_true ha

theorem scheduleBatches_maximal :
    ∀ l, batchesMaximalB (scheduleBatches true l) = true := by
  intro l
  induction l using scheduleBatches.induct true with
  | case1 => rw [scheduleBatches]; rfl
  | case2 i c rest hsafe ih =>
    rw [scheduleBatches, if_pos hsafe]
    cases hnext : scheduleBatches true (rest.dropWhile fun p => isParallelReadCommand p.2) with
    | nil => rfl
    | cons b2 bs =>
      rw [hnext] at ih
      obtain ⟨p, l', hl', b', hb'⟩ := scheduleBatches_head_eq true _ b2 bs hnext
      have hp : isParallelReadCommand p.2 = false :=
        dropWhile_head_false _ rest p l' hl'
      subst hb'
      unfold batchesMaximalB
      rw [ih, Bool.and_true]
      simp [hp]
  | case3 i c rest hsafe ih =>
    rw [scheduleBatches, if_neg hsafe]
    have hc : isParallelReadCommand c = false := by
      cases h : isParallelReadCommand c
      · rfl
      · exact absurd (by simp [h] : (true && isParallelReadCommand c) = true) hsafe
    cases hnext : scheduleBatches true rest with
    | nil => rfl
    | cons b2 bs =>
      rw [hnext] at ih
      unfold batchesMaximalB
      rw [ih, Bool.and_true]
      simp [hc]

theorem indexFrom_ge : ∀ (cmds : List String) (n : Nat) (p : Nat × String),
    p ∈ indexFrom n cmds → n ≤ p.1 := by
  intro cmds
  induction cmds with
  | nil => intro n p h; cases h
  | cons c rest ih =>
    intro n p h
    rcases List.mem_cons.mp h with h | h
    · rw [h]
    · exact Nat.le_of_succ_le (ih (n + 1) p h)

theorem indexFrom_pairwise : ∀ (cmds : List String) (n : Nat),
    List.Pairwise (fun a b : Nat × String => a.1 < b.1) (indexFrom n cmds) := by
  intro cmds
  induction cmds with
  | nil => intro n; exact List.Pairwise.nil
  | cons c rest ih =>
    intro n
    refine List.Pairwise.cons ?_ (ih (n + 1))
    intro p hp
    exact indexFrom_ge rest (n + 1) p hp

theorem batchSeq_no_overlap_aux (t : Nat → Nat × Nat) :
    ∀ sched, batchSeqB t sched = true →
      (∀ b ∈ sched, ∀ x ∈ b, isParallelReadCommand x.2 = false → b = [x]) →
      ∀ p q, p ∈ sched.flatten → q ∈ sched.flatten → p.1 ≠ q.1 →
        isParallelReadCommand p.2 = false → overlapsB (t p.1) (t q.1) = false := by
  intro sched
  induction sched with
  | nil => intro _ _ p q hp; simp at hp
  | cons b rest ih =>
    intro hseq hsing p q hp hq hne hps
    rw [batchSeqB, Bool.and_eq_true] at hseq
    have hb := hseq.1
    rw [List.all_eq_true] at hb
    simp only [List.flatten_cons, List.mem_append] at hp hq
    rcases hp with hp | hp <;> rcases hq with hq | hq
    · have hbp : b = [p] := hsing b (List.mem_cons_self b rest) p hp hps
      rw [hbp] at hq
      rcases List.mem_singleton.mp hq with h
      exact absurd (congrArg Prod.fst h.symm) hne
    · have := hb p hp
      rw [List.all_eq_true] at this
      have hle := of_decide_eq_true (this q hq)
      simp only [overlapsB, Bool.and_eq_false_iff]
      right
      simpa using Nat.not_lt.mpr hle
    · have := hb q hq
      rw [List.all_eq_true] at this
      have hle := of_decide_eq_true (this p hp)
      simp only [overlapsB, Bool.and_eq_false_iff]
      left
      simpa using Nat.not_lt.mpr hle
    · exact ih hseq.2
        (fun b' hb' => hsing b' (List.mem_cons_of_mem b hb')) p q hp hq hne hps

theorem batchSeq_write_starts_after_aux (t : Nat → Nat × Nat) :
    ∀ sched, batchSeqB t sched = true →
      (∀ b ∈ sched, ∀ x ∈ b, isParallelReadCommand x.2 = false → b = [x]) →
      List.Pairwise (fun a b : Nat × String => a.1 < b.1) sched.flatten →
      ∀ p q, p ∈ sched.flatten → q ∈ sched.flatten →
        isParallelReadCommand p.2 = false → q.1 < p.1 →
        (t q.1).2 ≤ (t p.1).1 := by
  intro sched
  induction sched with
  | nil => intro _ _ _ p q hp; simp at hp
  | cons b rest ih =>
    intro hseq hsing hsort p q hp hq hps hlt
    rw [batchSeqB, Bool.and_eq_true] at hseq
    have hb := hseq.1
    rw [List.all_eq_true] at hb
    simp only [List.flatten_cons, List.mem_append] at hp hq
    rw [List.flatten_cons, List.pairwise_append] at hsort
    rcases hp with hp | hp <;> rcases hq with hq | hq
    · have hbp : b = [p] := hsing b (List.mem_cons_self b rest) p hp hps
      rw [hbp] at hq
      rcases List.mem_singleton.mp hq with h
      rw [h] at hlt
      exact absurd hlt (Nat.lt_irrefl _)
    · exact absurd (hsort.2.2 p hp q hq) (Nat.not_lt.mpr (Nat.le_of_lt hlt))
    · have := hb q hq
      rw [List.all_eq_true] at this
      exact of_decide_eq_true (this p hp)
    · exact ih hseq.2
        (fun b' hb' => hsing b' (List.mem_cons_of_mem b hb')) hsort.2.1 p q hp hq hps hlt

theorem scheduleBatches_disabled_singleton :
    ∀ l, ∀ b ∈ scheduleBatches false l, ∃ p, b = [p] := by
  intro l
  induction l using scheduleBatches.induct false with
  | case1 => simp [scheduleBatches]
  | case2 i c rest hsafe ih => simp at hsafe
  | case3 i c rest hsafe ih =>
    rw [scheduleBatches, if_neg hsafe]
    intro b hb
    rcases List.mem_cons.mp hb with h | h
    · exact ⟨(i, c), h⟩
    · exact ih b h

/-- C1: for a planner-produced command list, the scheduler executes each
command not classified as a safe parallel read in a singleton batch, the
batches partition the command list in order, all-safe batches are maximal,
and under the batch-sequential timing guaranteed by awaiting each batch
(`batchSeqB`) a write-capable command overlaps no other command and starts
only after every previously scheduled command finished.  With parallel
execution disabled every batch is a singleton.  The parallel worker limit
is the configured value clamped to 1..8, and its configured default is 3
with parallel reads enabled. -/
theorem scheduler_serializes_writes (cmds : List String) (t : Nat → Nat × Nat) (w : Int) :
    (scheduleBatches true (indexFrom 1 cmds)).flatten = indexFrom 1 cmds ∧
    (∀ b ∈ scheduleBatches true (indexFrom 1 cmds), b ≠ []) ∧
    (∀ b ∈ scheduleBatches true (indexFrom 1 cmds), ∀ p ∈ b,
      isParallelReadCommand p.2 = false → b = [p]) ∧
    batchesMaximalB (scheduleBatches true (indexFrom 1 cmds)) = true ∧
    (∀ b ∈ scheduleBatches false (indexFrom 1 cmds), ∃ p, b = [p]) ∧
    (batchSeqB t (scheduleBatches true (indexFrom 1 cmds)) = true →
      (∀ p ∈ indexFrom 1 cmds, ∀ q ∈ indexFrom 1 cmds, p.1 ≠ q.1 →
        isParallelReadCommand p.2 = false → overlapsB (t p.1) (t q.1) = false) ∧
      (∀ p ∈ indexFrom 1 cmds, ∀ q ∈ indexFrom 1 cmds,
        isParallelReadCommand p.2 = false → q.1 < p.1 → (t q.1).2 ≤ (t p.1).1)) ∧
    (1 ≤ maxWorkersClamp w ∧ maxWorkersClamp w ≤ 8) ∧
    defaultRuntimeConfigSched.execution_parallel_reads_enabled = true ∧
    maxWorkersClamp defaultRuntimeConfigSched.execution_parallel_reads_max_workers = 3 := by
  have hflat := scheduleBatches_flatten true (indexFrom 1 cmds)
  refine ⟨hflat, scheduleBatches_ne_nil true _, scheduleBatches_unsafe_singleton true _,
    scheduleBatches_maximal _, scheduleBatches_disabled_singleton _, ?_, ?_, rfl, rfl⟩
  · intro hseq
    constructor
    · intro p hp q hq hne hps
      exact batchSeq_no_overlap_aux t _ hseq (scheduleBatches_unsafe_singleton true _)
        p q (hflat.symm ▸ hp) (hflat.symm ▸ hq) hne hps
    · intro p hp q hq hps hlt
      exact batchSeq_write_starts_after_aux t _ hseq (scheduleBatches_unsafe_singleton true _)
        (hflat.symm ▸ indexFrom_pairwise cmds 1)
        p q (hflat.symm ▸ hp) (hflat.symm ▸ hq) hps hlt
  · unfold maxWorkersClamp
    omega

/-- C1 witness: the plan `[cat a.txt, ls, touch b.txt]` with a concrete
batch-sequential timing; the two reads share a window, the write occupies a
later one. -/
theorem scheduler_serializes_writes_witness :
    (batchSeqB (fun i => if i ≤ 2 then (0, 1) else (1, 2))
      (scheduleBatches true (indexFrom 1 ["cat a.txt", "ls", "touch b.txt"])) = true) ∧
    ((scheduleBatches true (indexFrom 1 ["cat a.txt", "ls", "touch b.txt"])).flatten
        = indexFrom 1 ["cat a.txt", "ls", "touch b.txt"] ∧
    (∀ b ∈ scheduleBatches true (indexFrom 1 ["cat a.txt", "ls", "touch b.txt"]), b ≠ []) ∧
    (∀ b ∈ scheduleBatches true (indexFrom 1 ["cat a.txt", "ls", "touch b.txt"]), ∀ p ∈ b,
      isParallelReadCommand p.2 = false → b = [p]) ∧
    batchesMaximalB (scheduleBatches true (indexFrom 1 ["cat a.txt", "ls", "touch b.txt"])) = true ∧
    (∀ b ∈ scheduleBatches false (indexFrom 1 ["cat a.txt", "ls", "touch b.txt"]), ∃ p, b = [p]) ∧
    (batchSeqB (fun i => if i ≤ 2 then (0, 1) else (1, 2))
        (scheduleBatches true (indexFrom 1 ["cat a.txt", "ls", "touch b.txt"])) = true →
      (∀ p ∈ indexFrom 1 ["cat a.txt", "ls", "touch b.txt"],
       ∀ q ∈ indexFrom 1 ["cat a.txt", "ls", "touch b.txt"], p.1 ≠ q.1 →
        isParallelReadCommand p.2 = false →
        overlapsB ((fun i => if i ≤ 2 then (0, 1) else (1, 2)) p.1)
          ((fun i => if i ≤ 2 then (0, 1) else (1, 2)) q.1) = false) ∧
      (∀ p ∈ indexFrom 1 ["cat a.txt", "ls", "touch b.txt"],
       ∀ q ∈ indexFrom 1 ["cat a.txt", "ls", "touch b.txt"],
        isParallelReadCommand p.2 = false → q.1 < p.1 →
        ((fun i => if i ≤ 2 then (0, 1) else (1, 2)) q.1).2
          ≤ ((fun i => if i ≤ 2 then (0, 1) else (1, 2)) p.1).1)) ∧
    (1 ≤ maxWorkersClamp 3 ∧ maxWorkersClamp 3 ≤ 8) ∧
    defaultRuntimeConfigSched.execution_parallel_reads_enabled = true ∧
    maxWorkersClamp defaultRuntimeConfigSched.execution_parallel_reads_max_workers = 3) := by
  have h1 : isParallelReadCommand "cat a.txt" = true := by decide
  have h2 : isParallelReadCommand "ls" = true := by decide
  have h3 : isParallelReadCommand "touch b.txt" = false := by decide
  have hsched : scheduleBatches true (indexFrom 1 ["cat a.txt", "ls", "touch b.txt"])
      = [[(1, "cat a.txt"), (2, "ls")], [(3, "touch b.txt")]] := by
    rw [show indexFrom 1 ["cat a.txt", "ls", "touch b.txt"]
        = [(1, "cat a.txt"), (2, "ls"), (3, "touch b.txt")] from rfl]
    simp [scheduleBatches, h1, h2, h3, List.takeWhile_cons, List.dropWhile_cons]
  refine ⟨?_, scheduler_serializes_writes ["cat a.txt", "ls", "touch b.txt"]
     (fun i => if i ≤ 2 then (0, 1) else (1, 2)) 3⟩
  rw [hsched]
  decide

/-! ## Command validator/executor (`codex.py`)

Filesystem paths are modelled as component lists; `Path.resolve` becomes
`resolveComps` (symlinks are not modelled, `.` and `..` are eliminated the
way `resolve` does on a symlink-free tree).  `CodexExecutor.execute` becomes
a function returning the trace of its side-effecting stages together with
its result, so that "rejected before X happened" is the absence of the `X`
action from the trace. -/

/-- `codex.ALLOWED_PREFIXES`. -/
def ALLOWED_PREFIXES : List String :=
  ["ls", "cat", "pwd", "echo", "mkdir", "touch", "cp", "mv", "find", "grep",
   "sed", "awk", "git", "python", "python3", "pytest", "uv", "npm", "node",
   "sh", "bash"]

/-- The `CodexCommandError` cases raised in `execute` before a child
process could be spawned.  Constructors stand for the Python message
strings: invalid command syntax / sudo blocked / prefix not in allowlist /
resolved cwd escapes project root-worktree boundary / execution cwd does
not exist / project not writable. -/
inductive CodexErr where
  | invalidSyntax
  | sudoBlocked
  | prefixNotAllowed (head : String)
  | cwdEscapes
  | cwdMissing
  | notWritable
deriving DecidableEq

/-- `CodexExecutor._validate_command`: first `shlex` token must exist, not
be `sudo`, and belong to the allowlist (`ValueError`/`IndexError` map to
the invalid-syntax rejection). -/
def validateCommand (cmd : String) : Except CodexErr Unit :=
  match shlexSplit cmd with
  | none => .error .invalidSyntax
  | some [] => .error .invalidSyntax
  | some (head :: _) =>
    if head = "sudo" then .error .sudoBlocked
    else if ALLOWED_PREFIXES.contains head then .ok ()
    else .error (.prefixNotAllowed head)

/-- `Path.resolve` on a symlink-free tree: drop `.` and empty components,
let `..` remove the previous component (the filesystem root absorbs
excess `..`). -/
def resolveComps (comps : List String) : List String :=
  comps.foldl
    (fun acc c =>
      if c = "." || c = "" then acc
      else if c = ".." then acc.dropLast
      else acc ++ [c])
    []

/-- `utils.ensure_inside`: `target.resolve().relative_to(base.resolve())`
succeeds exactly when the resolved base components are a prefix of the
resolved target components. -/
def ensure_inside (base target : List String) : Bool :=
  (resolveComps base).isPrefixOf (resolveComps target)

/-- A requested working directory (`Path(command.cwd)`): parsed into
absoluteness plus components. -/
structure CwdSpec where
  absolute : Bool
  comps : List String
deriving DecidableEq

/-- A planner-produced tagged command (`types.TaggedCommand`), with the
`cwd` string already parsed into a `CwdSpec`. -/
structure TaggedCommandM where
  raw : String
  cmd : String
  worktree : Option String := none
  cwd : Option CwdSpec := none

/-- The project context and process environment facts `execute` consults
before spawning: project root and internal-state dir as absolute component
paths, the home directory for `expanduser`, `stable_slug` kept abstract
(it appends a SHA-1 digest), the writability probe
(`context.permission and not permission.needs_sudo`), and the
`cwd.exists() and cwd.is_dir()` filesystem probe. -/
structure ExecContext where
  root_path : List String
  stash_dir : List String
  home : List String
  slug : String → String
  permissionOk : Bool
  cwdExistsDir : List String → Bool

/-- `Path.expanduser`: a leading bare `~` component of a relative path is
replaced by the home directory, making the path absolute (`~user` forms
are not used by the planner and not modelled). -/
def expandUser (home : List String) (spec : CwdSpec) : CwdSpec :=
  if spec.absolute then spec
  else
    match spec.comps with
    | c :: rest => if c = "~" then { absolute := true, comps := home ++ rest } else spec
    | [] => spec

/-- `CodexExecutor._resolve_worktree`: `stash_dir / "worktrees" / slug`. -/
def resolveWorktree (ctx : ExecContext) (label : Option String) : List String :=
  ctx.stash_dir ++ ["worktrees", ctx.slug (label.getD "default")]

/-- The resolution step of `_resolve_cwd` for an explicitly requested cwd:
absolute requests are resolved as given, relative ones against the project
root. -/
def resolveCwdTarget (ctx : ExecContext) (spec : CwdSpec) : List String :=
  let s := expandUser ctx.home spec
  if s.absolute then resolveComps s.comps
  else resolveComps (ctx.root_path ++ s.comps)

/-- `CodexExecutor._resolve_cwd`: the resolved target is accepted exactly
when it lies inside the project root or inside the worktree directory. -/
def resolveCwd (ctx : ExecContext) (worktreePath : List String) (cwd : Option CwdSpec) :
    Except CodexErr (List String) :=
  let target :=
    match cwd with
    | some spec => resolveCwdTarget ctx spec
    | none => resolveComps ctx.root_path
  if ensure_inside ctx.root_path target || ensure_inside worktreePath target then .ok target
  else .error .cwdEscapes

/-- The observable side-effecting stages of `CodexExecutor.execute`. -/
inductive ExecAction where
  | resolveWorktreeDir
  | resolveCwdDir
  | spawn
deriving DecidableEq

/-- The successful outcome fields of `execute` that are determined before
the child process runs (engine/exit code/stdout/stderr come from the
spawned process and are outside this model). -/
structure ExecResolved where
  cwd : List String
  worktreePath : List String

/-- `CodexExecutor.execute` up to the point where a child process is
spawned: validation first, then worktree resolution (a `mkdir`), then cwd
resolution, then the existence and writability checks.  Returns the trace
of performed stages with the result. -/
def executeModel (ctx : ExecContext) (c : TaggedCommandM) :
    List ExecAction × Except CodexErr ExecResolved :=
  match validateCommand c.cmd with
  | .error e => ([], .error e)
  | .ok _ =>
    let wt := resolveWorktree ctx c.worktree
    match resolveCwd ctx wt c.cwd with
    | .error e => ([.resolveWorktreeDir], .error e)
    | .ok cwd =>
      if !(ctx.cwdExistsDir cwd) then
        ([.resolveWorktreeDir, .resolveCwdDir], .error .cwdMissing)
      else if !ctx.permissionOk then
        ([.resolveWorktreeDir, .resolveCwdDir], .error .notWritable)
      else
        ([.resolveWorktreeDir, .resolveCwdDir, .spawn],
          .ok { cwd := cwd, worktreePath := wt })

/-- C2: a tagged command whose first shell token is `sudo` or outside the
allowlist — or whose text `shlex` cannot tokenize — is rejected by
`execute` during validation: the stage trace is empty, so neither
worktree/cwd resolution nor a process spawn happened. -/
theorem execute_rejects_disallowed (ctx : ExecContext) (c : TaggedCommandM)
    (h : shlexSplit c.cmd = none ∨ shlexSplit c.cmd = some [] ∨
      ∃ head rest, shlexSplit c.cmd = some (head :: rest) ∧
        (head = "sudo" ∨ ALLOWED_PREFIXES.contains head = false)) :
    (executeModel ctx c).1 = [] ∧
    ∃ e, (executeModel ctx c).2 = .error e ∧
      (e = .invalidSyntax ∨ e = .sudoBlocked ∨ ∃ hd, e = CodexErr.prefixNotAllowed hd) := by
  have hv : ∃ e, validateCommand c.cmd = .error e ∧
      (e = .invalidSyntax ∨ e = .sudoBlocked ∨ ∃ hd, e = CodexErr.prefixNotAllowed hd) := by
    rcases h with h | h | ⟨head, rest, heq, hbad⟩
    · exact ⟨.invalidSyntax, by simp [validateCommand, h], Or.inl rfl⟩
    · exact ⟨.invalidSyntax, by simp [validateCommand, h], Or.inl rfl⟩
    · rcases hbad with hsudo | hpref
      · exact ⟨.sudoBlocked, by simp [validateCommand, heq, hsudo], Or.inr (Or.inl rfl)⟩
      · by_cases hsudo : head = "sudo"
        · exact ⟨.sudoBlocked, by simp [validateCommand, heq, hsudo], Or.inr (Or.inl rfl)⟩
        · refine ⟨.prefixNotAllowed head, ?_, Or.inr (Or.inr ⟨head, rfl⟩)⟩
          simp [validateCommand, heq, hsudo, hpref]
          intro hmem
          rw [← List.elem_iff] at hmem
          exact absurd hmem (by simp [List.contains] at hpref; simp [hpref])
  obtain ⟨e, he, hcase⟩ := hv
  refine ⟨?_, e, ?_, hcase⟩ <;> simp [executeModel, he]

/-- C2 witness: `sudo rm -rf /` is rejected with an empty stage trace. -/
theorem execute_rejects_disallowed_witness :
    (shlexSplit "sudo rm -rf /" = none ∨ shlexSplit "sudo rm -rf /" = some [] ∨
      ∃ head rest, shlexSplit "sudo rm -rf /" = some (head :: rest) ∧
        (head = "sudo" ∨ ALLOWED_PREFIXES.contains head = false)) ∧
    ((executeModel
        { root_path := ["p"], stash_dir := ["p", ".stash"], home := ["h"],
          slug := fun s => s, permissionOk := true, cwdExistsDir := fun _ => true }
        { raw := "sudo rm -rf /", cmd := "sudo rm -rf /" }).1 = [] ∧
      ∃ e, (executeModel
        { root_path := ["p"], stash_dir := ["p", ".stash"], home := ["h"],
          slug := fun s => s, permissionOk := true, cwdExistsDir := fun _ => true }
        { raw := "sudo rm -rf /", cmd := "sudo rm -rf /" }).2 = .error e ∧
        (e = .invalidSyntax ∨ e = .sudoBlocked ∨ ∃ hd, e = CodexErr.prefixNotAllowed hd)) :=
  ⟨Or.inr (Or.inr ⟨"sudo", ["rm", "-rf", "/"], by decide, Or.inl rfl⟩),
   execute_rejects_disallowed _ _
     (Or.inr (Or.inr ⟨"sudo", ["rm", "-rf", "/"], by decide, Or.inl rfl⟩))⟩

/-- C3: for a tagged command with an explicit working-directory request
that passes validation, if the resolved target (absolute as given, or
relative to the project root) lies neither inside the project root nor
inside the command's worktree directory, `execute` rejects with the
boundary error and never reaches the spawn stage; if it lies inside
either boundary, `_resolve_cwd` accepts it and returns that target. -/
theorem execute_cwd_sandbox (ctx : ExecContext) (c : TaggedCommandM) (spec : CwdSpec)
    (hc : c.cwd = some spec) (hv : validateCommand c.cmd = .ok ()) :
    (ensure_inside ctx.root_path (resolveCwdTarget ctx spec) = false →
      ensure_inside (resolveWorktree ctx c.worktree) (resolveCwdTarget ctx spec) = false →
      (executeModel ctx c).2 = .error .cwdEscapes ∧
        ExecAction.spawn ∉ (executeModel ctx c).1) ∧
    ((ensure_inside ctx.root_path (resolveCwdTarget ctx spec) ||
        ensure_inside (resolveWorktree ctx c.worktree) (resolveCwdTarget ctx spec)) = true →
      resolveCwd ctx (resolveWorktree ctx c.worktree) c.cwd
        = .ok (resolveCwdTarget ctx spec)) := by
  constructor
  · intro hroot hwt
    have hres : resolveCwd ctx (resolveWorktree ctx c.worktree) c.cwd
        = .error .cwdEscapes := by
      simp [resolveCwd, hc, hroot, hwt]
    constructor
    · simp [executeModel, hv, hres]
    · simp [executeModel, hv, hres]
  · intro hin
    simp [resolveCwd, hc, hin]

/-- C3 witness: `cwd: ../../..` escapes the project root `/home/u/proj`
and the worktree sandbox, so the command is rejected without a spawn;
`cwd: sub` resolves inside the root and is accepted. -/
theorem execute_cwd_sandbox_witness :
    ((executeModel
        { root_path := ["home", "u", "proj"], stash_dir := ["home", "u", "proj", ".stash"],
          home := ["home", "u"], slug := fun s => s, permissionOk := true,
          cwdExistsDir := fun _ => true }
        { raw := "ls", cmd := "ls",
          cwd := some { absolute := false, comps := ["..", "..", ".."] } }).2
      = .error .cwdEscapes ∧
      ExecAction.spawn ∉ (executeModel
        { root_path := ["home", "u", "proj"], stash_dir := ["home", "u", "proj", ".stash"],
          home := ["home", "u"], slug := fun s => s, permissionOk := true,
          cwdExistsDir := fun _ => true }
        { raw := "ls", cmd := "ls",
          cwd := some { absolute := false, comps := ["..", "..", ".."] } }).1) ∧
    resolveCwd
      { root_path := ["home", "u", "proj"], stash_dir := ["home", "u", "proj", ".stash"],
        home := ["home", "u"], slug := fun s => s, permissionOk := true,
        cwdExistsDir := fun _ => true }
      (resolveWorktree
        { root_path := ["home", "u", "proj"], stash_dir := ["home", "u", "proj", ".stash"],
          home := ["home", "u"], slug := fun s => s, permissionOk := true,
          cwdExistsDir := fun _ => true } none)
      (some { absolute := false, comps := ["sub"] })
      = .ok ["home", "u", "proj", "sub"] := by
  constructor
  · exact (execute_cwd_sandbox _
      { raw := "ls", cmd := "ls",
        cwd := some { absolute := false, comps := ["..", "..", ".."] } }
      { absolute := false, comps := ["..", "..", ".."] } rfl rfl).1
      (by decide) (by decide)
  · have h := (execute_cwd_sandbox
      { root_path := ["home", "u", "proj"], stash_dir := ["home", "u", "proj", ".stash"],
        home := ["home", "u"], slug := fun s => s, permissionOk := true,
        cwdExistsDir := fun _ => true }
      { raw := "ls", cmd := "ls", cwd := some { absolute := false, comps := ["sub"] } }
      { absolute := false, comps := ["sub"] } rfl rfl).2 (by decide)
    simpa using h

/-! ## Planner (`planner.py`, `Planner.plan`)

`plan` is embedded with its effectful sub-calls as explicit inputs: the
results of `parse_tagged_commands`, of `_run_external_planner`, of
`_attempt_codex` / `_attempt_openai` (each already an `Option PlanResult`,
the way those helper methods return), of `_heuristic_read_plan`, and the
availability probes used by the fallback hint.  All branch logic of the
`plan` body itself is embedded. -/

/-- `types.PlanResult` with its dataclass defaults. -/
structure PlanResult where
  planner_text : String
  commands : List TaggedCommandM
  timed_out_primary : Bool := false
  used_backend : String := "unknown"
  used_fallback : Option String := none

/-- `planner.ACTION_KEYWORDS`. -/
def ACTION_KEYWORDS : List String :=
  ["create", "write", "generate", "make", "build", "update", "edit", "fix",
   "organize", "move", "rename", "read", "analyze", "summarize"]

/-- `Planner._is_actionable_request`: keyword scan over the lowercased
message. -/
def isActionableRequest (userMessage : String) : Bool :=
  ACTION_KEYWORDS.any (fun k => containsSub (lowerStr userMessage).data k.data)

/-- The outcome of `Planner._attempt_codex`: an accepted result (if any)
plus whether the primary attempt signalled a timeout. -/
structure CodexAttemptOutcome where
  result : Option PlanResult
  timed_out_primary : Bool := false

/-- The effectful sub-calls of one `Planner.plan` invocation, provided as
data: parsed tagged commands of the user message, raw external-planner
text with the parse of that text (after `_rewrite_pdf_read_commands`),
the codex and openai attempt outcomes (openai as a function of the
threaded `timed_out_primary` flag, which `_attempt_openai` copies into
its result), the heuristic read fallback, and the availability probes. -/
structure PlannerCalls where
  directCommands : List TaggedCommandM
  externalText : Option String
  externalCommands : List TaggedCommandM
  codexOutcome : CodexAttemptOutcome
  openaiResult : Bool → Option PlanResult
  heuristic : Option PlanResult
  codexAvailable : Bool
  openaiAvailable : Bool

/-- The fallback hint chain at the bottom of `Planner.plan`. -/
def plannerFallbackHint (plannerBackend : String) (calls : PlannerCalls) : String :=
  if plannerBackend = "openai_api" && !calls.openaiAvailable then
    "Open AI setup and add your OpenAI API key."
  else if !calls.codexAvailable && !calls.openaiAvailable then
    "Verify Codex CLI login, or add an OpenAI API key in AI setup."
  else if !calls.codexAvailable then
    "Verify Codex CLI installation and login in AI setup."
  else "Try again or rephrase the request."

/-- The two-element backend loop of `plan`, unrolled for the two possible
orders (`codex, openai` by default; swapped when the configured backend is
`openai_api`), threading `timed_out_primary` exactly as the loop does. -/
def planBackendLoop (plannerBackend : String) (calls : PlannerCalls) :
    Option PlanResult × Bool :=
  if plannerBackend = "openai_api" then
    match calls.openaiResult false with
    | some r => (some { r with timed_out_primary := false || r.timed_out_primary }, false)
    | none =>
      let timedOut := calls.codexOutcome.timed_out_primary
      match calls.codexOutcome.result with
      | some r => (some { r with timed_out_primary := timedOut || r.timed_out_primary }, timedOut)
      | none => (none, timedOut)
  else
    let timedOut := calls.codexOutcome.timed_out_primary
    match calls.codexOutcome.result with
    | some r => (some { r with timed_out_primary := timedOut || r.timed_out_primary }, timedOut)
    | none =>
      match calls.openaiResult timedOut with
      | some r => (some { r with timed_out_primary := timedOut || r.timed_out_primary }, timedOut)
      | none => (none, timedOut)

/-- `Planner.plan`: direct tagged pass-through, external hook, the
backend loop, the heuristic read fallback, and the fixed-prefix fallback
result. -/
def planModel (plannerBackend : String) (userMessage : String) (calls : PlannerCalls) :
    PlanResult :=
  if !calls.directCommands.isEmpty then
    { planner_text := "Executing " ++ toString calls.directCommands.length
        ++ " tagged command(s) from user input.",
      commands := calls.directCommands,
      used_backend := "direct_tagged" }
  else
    match calls.externalText with
    | some text =>
      if !calls.externalCommands.isEmpty || !isActionableRequest userMessage then
        { planner_text := text, commands := calls.externalCommands,
          used_backend := "external" }
      else planAfterExternal plannerBackend userMessage calls
    | none => planAfterExternal plannerBackend userMessage calls
where
  /-- The part of `plan` after the external-hook branch. -/
  planAfterExternal (plannerBackend : String) (_userMessage : String)
      (calls : PlannerCalls) : PlanResult :=
    match planBackendLoop plannerBackend calls with
    | (some r, _) => r
    | (none, timedOut) =>
      match calls.heuristic with
      | some h => { h with timed_out_primary := timedOut }
      | none =>
        { planner_text := "Planner fallback: could not generate an execution plan. "
            ++ plannerFallbackHint plannerBackend calls,
          commands := [],
          timed_out_primary := timedOut,
          used_backend := "fallback",
          used_fallback := some "planner_unavailable" }

/-- C8 (amended): when the direct pass-through finds no tagged commands,
the external hook yields no accepted plan, both backends of the loop fail,
and the heuristic read fallback fails, `plan` returns — never raises,
being a total function of its sub-call results — a `PlanResult` with no
commands, `used_backend = "fallback"`, `used_fallback =
"planner_unavailable"`, and a planner text that starts with the fixed
prefix followed by a configuration-dependent hint. -/
theorem plan_exhausted_fallback (plannerBackend userMessage : String)
    (calls : PlannerCalls)
    (hdirect : calls.directCommands = [])
    (hext : calls.externalText = none ∨
      (calls.externalCommands = [] ∧ isActionableRequest userMessage = true))
    (hcodex : calls.codexOutcome.result = none)
    (hopenai : ∀ b, calls.openaiResult b = none)
    (hheur : calls.heuristic = none) :
    (planModel plannerBackend userMessage calls).commands = [] ∧
    (planModel plannerBackend userMessage calls).used_backend = "fallback" ∧
    (planModel plannerBackend userMessage calls).used_fallback
      = some "planner_unavailable" ∧
    (planModel plannerBackend userMessage calls).planner_text
      = "Planner fallback: could not generate an execution plan. "
        ++ plannerFallbackHint plannerBackend calls ∧
    ∃ hint, (planModel plannerBackend userMessage calls).planner_text
      = "Planner fallback: could not generate an execution plan." ++ hint := by
  have hloop : planBackendLoop plannerBackend calls
      = (none, if plannerBackend = "openai_api" then calls.codexOutcome.timed_out_primary
          else calls.codexOutcome.timed_out_primary) := by
    unfold planBackendLoop
    by_cases hb : plannerBackend = "openai_api"
    · rw [if_pos hb, if_pos hb, hopenai false, hcodex]
    · rw [if_neg hb, if_neg hb]
      simp only [hcodex, hopenai]
  have hafter : planModel.planAfterExternal plannerBackend userMessage calls
      = { planner_text := "Planner fallback: could not generate an execution plan. "
            ++ plannerFallbackHint plannerBackend calls,
          commands := [],
          timed_out_primary := if plannerBackend = "openai_api"
            then calls.codexOutcome.timed_out_primary
            else calls.codexOutcome.timed_out_primary,
          used_backend := "fallback",
          used_fallback := some "planner_unavailable" } := by
    unfold planModel.planAfterExternal
    rw [hloop]
    simp only [hheur]
  have hplan : planModel plannerBackend userMessage calls
      = planModel.planAfterExternal plannerBackend userMessage calls := by
    unfold planModel
    rcases hext with hnone | ⟨hcmds, hact⟩
    · rw [hdirect, hnone]; simp
    · cases htext : calls.externalText with
      | none => rw [hdirect]; simp
      | some text => rw [hdirect, hcmds, hact]; simp
  rw [hplan, hafter]
  refine ⟨rfl, rfl, rfl, rfl, ⟨" " ++ plannerFallbackHint plannerBackend calls, ?_⟩⟩
  rw [show ("Planner fallback: could not generate an execution plan. " : String)
      = "Planner fallback: could not generate an execution plan." ++ " " from rfl,
    String.append_assoc]

/-- C8 witness: with no external hook, failing codex and openai attempts,
no heuristic, and both backends available, the fallback result is
produced. -/
theorem plan_exhausted_fallback_witness :
    ((planModel "auto" "hello"
        { directCommands := [], externalText := none, externalCommands := [],
          codexOutcome := { result := none }, openaiResult := fun _ => none,
          heuristic := none, codexAvailable := true, openaiAvailable := true }).commands
      = [] ∧
    (planModel "auto" "hello"
        { directCommands := [], externalText := none, externalCommands := [],
          codexOutcome := { result := none }, openaiResult := fun _ => none,
          heuristic := none, codexAvailable := true, openaiAvailable := true }).used_backend
      = "fallback" ∧
    (planModel "auto" "hello"
        { directCommands := [], externalText := none, externalCommands := [],
          codexOutcome := { result := none }, openaiResult := fun _ => none,
          heuristic := none, codexAvailable := true, openaiAvailable := true }).used_fallback
      = some "planner_unavailable" ∧
    (planModel "auto" "hello"
        { directCommands := [], externalText := none, externalCommands := [],
          codexOutcome := { result := none }, openaiResult := fun _ => none,
          heuristic := none, codexAvailable := true, openaiAvailable := true }).planner_text
      = "Planner fallback: could not generate an execution plan. "
        ++ plannerFallbackHint "auto"
          { directCommands := [], externalText := none, externalCommands := [],
            codexOutcome := { result := none }, openaiResult := fun _ => none,
            heuristic := none, codexAvailable := true, openaiAvailable := true } ∧
    ∃ hint, (planModel "auto" "hello"
        { directCommands := [], externalText := none, externalCommands := [],
          codexOutcome := { result := none }, openaiResult := fun _ => none,
          heuristic := none, codexAvailable := true, openaiAvailable := true }).planner_text
      = "Planner fallback: could not generate an execution plan." ++ hint) :=
  plan_exhausted_fallback "auto" "hello" _ rfl (Or.inl rfl) rfl (fun _ => rfl) rfl

/-- C8 counterexample to the frozen wording: the exhausted-planner text is
not one fixed message — with both backends available it carries the
"try again" hint, with neither available the "verify Codex CLI login"
hint, so the two planner texts differ. -/
theorem plan_fallback_text_not_fixed :
    (planModel "auto" "hello"
        { directCommands := [], externalText := none, externalCommands := [],
          codexOutcome := { result := none }, openaiResult := fun _ => none,
          heuristic := none, codexAvailable := true, openaiAvailable := true }).planner_text
      = "Planner fallback: could not generate an execution plan. Try again or rephrase the request." ∧
    (planModel "auto" "hello"
        { directCommands := [], externalText := none, externalCommands := [],
          codexOutcome := { result := none }, openaiResult := fun _ => none,
          heuristic := none, codexAvailable := false, openaiAvailable := false }).planner_text
      = "Planner fallback: could not generate an execution plan. Verify Codex CLI login, or add an OpenAI API key in AI setup." ∧
    (planModel "auto" "hello"
        { directCommands := [], externalText := none, externalCommands := [],
          codexOutcome := { result := none }, openaiResult := fun _ => none,
          heuristic := none, codexAvailable := true, openaiAvailable := true }).planner_text
      ≠ (planModel "auto" "hello"
        { directCommands := [], externalText := none, externalCommands := [],
          codexOutcome := { result := none }, openaiResult := fun _ => none,
          heuristic := none, codexAvailable := false, openaiAvailable := false }).planner_text := by
  refine ⟨?_, ?_, ?_⟩ <;>
    simp [planModel, planModel.planAfterExternal, planBackendLoop, plannerFallbackHint,
      isActionableRequest]

/-! ## Change-set engine (`orchestrator._derive_change_set` and helpers)

File inventories (`_collect_file_inventory`) are relative-path/content-hash
association lists; the diff-text and csv-cell enrichment of changes
(`diff`, `csv_cell_changes` fields) does not affect the change type, path
or pairing and is not modelled.  Python iterates over the `deleted` set
(unspecified hash order) to build the hash buckets; the embedding fixes
ascending order — for the properties proved here (which assume a unique
hash candidate) the order is immaterial. -/

/-- A Change record of `_derive_change_set` (type, path, optional
from-path, copy source, summary). -/
structure Change where
  type : String
  path : String
  from_path : Option String := none
  source_path : String := ""
  summary : String := ""
deriving DecidableEq

/-- `orchestrator.OFFICE_EXTENSIONS`. -/
def OFFICE_EXTENSIONS : List String := ["doc", "docx", "xls", "xlsx", "ppt", "pptx"]

/-- `orchestrator.IGNORED_CHANGE_PATHS`. -/
def IGNORED_CHANGE_PATHS : List String := ["STASH_HISTORY.md"]

/-- Split into the directory prefix (including the final slash) and the
base name, mirroring how `pathlib` addresses the last path component. -/
def splitLastSlash (cs : List Char) : List Char × List Char :=
  (cs.take (cs.length - (cs.reverse.takeWhile (fun c => c ≠ '/')).length),
   (cs.reverse.takeWhile (fun c => c ≠ '/')).reverse)

/-- The base-name characters of a relative path. -/
def baseNameChars (rel : String) : List Char := (splitLastSlash rel.data).2

/-- `PurePath.suffix` on a file name: the part from the last dot on,
empty when there is no dot (the run of non-dot characters from the end is
the whole name), when the dot is the last character (that run is empty),
or when the dot is the first character (dotfile). -/
def extOfName (name : List Char) : List Char :=
  if (name.reverse.takeWhile (fun c => c ≠ '.')).length = name.length then []
  else if (name.reverse.takeWhile (fun c => c ≠ '.')).length = 0 then []
  else if (name.reverse.takeWhile (fun c => c ≠ '.')).length = name.length - 1 then []
  else '.' :: (name.reverse.takeWhile (fun c => c ≠ '.')).reverse

/-- `RunOrchestrator._file_ext`: `Path(rel).suffix.lstrip(".").lower()`. -/
def fileExt (rel : String) : String :=
  String.mk (((extOfName (baseNameChars rel)).dropWhile (fun c => c = '.')).map Char.toLower)

/-- `RunOrchestrator._companion_output_path` restricted to the base name:
`stem + "_edited" + suffix`. -/
def companionName (name : List Char) : List Char :=
  name.take (name.length - (extOfName name).length) ++ "_edited".data ++ extOfName name

/-- `RunOrchestrator._companion_output_path`:
`source.with_name(f"{stem}_edited{suffix}")` as string surgery on the
relative path. -/
def companionOutputPath (rel : String) : String :=
  String.mk ((splitLastSlash rel.data).1 ++ companionName (baseNameChars rel))

example : companionOutputPath "docs/report.docx" = "docs/report_edited.docx" := by decide
example : companionOutputPath "a.xlsx" = "a_edited.xlsx" := by decide
example : fileExt "archive.tar.gz" = "gz" := by decide
example : fileExt ".bashrc" = "" := by decide
example : fileExt "A/B.DOCX" = "docx" := by decide

/-- The `rel_path or from_path` expression of
`_normalize_office_change`. -/
def changeRelOrFrom (change : Change) : String :=
  if change.path ≠ "" then change.path else change.from_path.getD ""

/-- `RunOrchestrator._normalize_office_change`: an edit or rename of an
office-format file is replaced by a companion `output_file` change; all
other changes pass through. -/
def normalizeOfficeChange (change : Change) : Change :=
  if !(OFFICE_EXTENSIONS.contains (fileExt (changeRelOrFrom change))) then change
  else if change.type = "edit_file" || change.type = "rename_file" then
    { type := "output_file",
      path := companionOutputPath (changeRelOrFrom change),
      from_path := none,
      source_path := if change.source_path ≠ "" then change.source_path else change.path,
      summary := "Office source kept unchanged; companion edited output generated." }
  else change

/-- Hash lookup in an inventory association list. -/
def invLookup (inv : List (String × String)) (rel : String) : Option String :=
  (inv.find? (fun p => p.1 = rel)).map Prod.snd

/-- Strict lexicographic character-list comparison (Python string `<`). -/
def ltChars : List Char → List Char → Bool
  | [], [] => false
  | [], _ :: _ => true
  | _ :: _, [] => false
  | a :: as, b :: bs => if a < b then true else if a = b then ltChars as bs else false

/-- Insert into a sorted list after all strictly smaller elements
(stable). -/
def insertSorted {α : Type} (lt : α → α → Bool) (a : α) : List α → List α
  | [] => [a]
  | b :: bs => if lt b a then b :: insertSorted lt a bs else a :: b :: bs

/-- Stable sort by a strict comparison, modelling Python `sorted`. -/
def insertionSort {α : Type} (lt : α → α → Bool) : List α → List α
  | [] => []
  | a :: rest => insertSorted lt a (insertionSort lt rest)

/-- Python `sorted` on strings. -/
def sortStr (l : List String) : List String :=
  insertionSort (fun a b => ltChars a.data b.data) l

/-- Python `sorted` on string pairs (tuples compare lexicographically). -/
def sortPairs (l : List (String × String)) : List (String × String) :=
  insertionSort
    (fun p q => ltChars p.1.data q.1.data || (p.1 = q.1 && ltChars p.2.data q.2.data)) l

theorem insertSorted_perm {α : Type} (lt : α → α → Bool) (a : α) :
    ∀ l : List α, List.Perm (insertSorted lt a l) (a :: l) := by
  intro l
  induction l with
  | nil => exact List.Perm.refl _
  | cons b bs ih =>
    rw [insertSorted]
    by_cases h : lt b a = true
    · rw [if_pos h]
      exact (List.Perm.cons b ih).trans (List.Perm.swap a b bs)
    · rw [if_neg h]

theorem insertionSort_perm {α : Type} (lt : α → α → Bool) :
    ∀ l : List α, List.Perm (insertionSort lt l) l := by
  intro l
  induction l with
  | nil => exact List.Perm.refl _
  | cons a rest ih =>
    rw [insertionSort]
    exact (insertSorted_perm lt a _).trans (List.Perm.cons a ih)

theorem mem_sortStr {r : String} {l : List String} : r ∈ sortStr l ↔ r ∈ l :=
  (insertionSort_perm _ l).mem_iff

theorem mem_sortPairs {p : String × String} {l : List (String × String)} :
    p ∈ sortPairs l ↔ p ∈ l :=
  (insertionSort_perm _ l).mem_iff

/-- Append `rel` to the bucket of `h` (`dict.setdefault(h, []).append(rel)`). -/
def bucketInsert : List (String × List String) → String → String → List (String × List String)
  | [], h, rel => [(h, [rel])]
  | (k, v) :: rest, h, rel =>
    if k = h then (k, v ++ [rel]) :: rest else (k, v) :: bucketInsert rest h rel

/-- The bucket contents for a hash. -/
def bucketFind : List (String × List String) → String → List String
  | [], _ => []
  | (k, v) :: rest, h => if k = h then v else bucketFind rest h

/-- `candidates.pop(0)` on the bucket of `h`: the first candidate (if any)
and the updated buckets. -/
def bucketPop : List (String × List String) → String → Option String × List (String × List String)
  | [], _ => (none, [])
  | (k, v) :: rest, h =>
    if k = h then
      match v with
      | [] => (none, (k, v) :: rest)
      | x :: xs => (some x, (k, xs) :: rest)
    else
      let (r, rest') := bucketPop rest h
      (r, (k, v) :: rest')

/-- Build `deleted_by_hash` from the deleted paths. -/
def bucketsOf (original : List (String × String)) :
    List String → List (String × List String) → List (String × List String)
  | [], buckets => buckets
  | rel :: rest, buckets =>
    match invLookup original rel with
    | some h => bucketsOf original rest (bucketInsert buckets h rel)
    | none => bucketsOf original rest buckets

/-- The rename-pairing loop over the created paths (in sorted order):
each created path consumes the first same-hash deleted candidate. -/
def pairLoop (preview : List (String × String)) :
    List String → List (String × List String) → List (String × String)
  | [], _ => []
  | rel :: rest, buckets =>
    match invLookup preview rel with
    | some h =>
      match bucketPop buckets h with
      | (some oldRel, buckets') => (oldRel, rel) :: pairLoop preview rest buckets'
      | (none, buckets') => pairLoop preview rest buckets'
    | none => pairLoop preview rest buckets

/-- `RunOrchestrator._derive_change_set` on the two inventories:
classify created/deleted/modified, pair equal-hash create/delete pairs as
renames, emit office-normalized Change records in the source's order. -/
def deriveChangeSet (original preview : List (String × String)) : List Change :=
  let originalPaths := original.map Prod.fst
  let previewPaths := preview.map Prod.fst
  let created0 := previewPaths.filter (fun r => !originalPaths.contains r)
  let deleted0 := originalPaths.filter (fun r => !previewPaths.contains r)
  let modified := (originalPaths.filter (fun r => previewPaths.contains r)).filter
    (fun r => !(invLookup original r == invLookup preview r))
  let buckets := bucketsOf original (sortStr deleted0) []
  let renamePairs := pairLoop preview (sortStr created0) buckets
  let created := created0.filter (fun r => !(renamePairs.map Prod.snd).contains r)
  let deleted := deleted0.filter (fun r => !(renamePairs.map Prod.fst).contains r)
  ((sortPairs renamePairs).map fun p =>
    normalizeOfficeChange
      { type := "rename_file", from_path := some p.1, path := p.2, source_path := p.2,
        summary := "Renamed " ++ p.1 ++ " -> " ++ p.2 }) ++
  ((sortStr created).map fun rel =>
    normalizeOfficeChange
      { type := "output_file", path := rel, source_path := rel,
        summary := "Created " ++ rel }) ++
  ((sortStr modified).map fun rel =>
    normalizeOfficeChange
      { type := "edit_file", path := rel, source_path := rel,
        summary := "Updated " ++ rel }) ++
  ((sortStr deleted).map fun rel =>
    normalizeOfficeChange
      { type := "delete_file", path := rel,
        summary := "Deleted " ++ rel })

example :
    deriveChangeSet [("a.txt", "h1")] [("b.txt", "h1")]
      = [{ type := "rename_file", from_path := some "a.txt", path := "b.txt",
           source_path := "b.txt", summary := "Renamed a.txt -> b.txt" }] := by decide

example :
    deriveChangeSet [("a.txt", "h1"), ("c.txt", "h2")] [("a.txt", "h3")]
      = [{ type := "edit_file", path := "a.txt", source_path := "a.txt",
           summary := "Updated a.txt" },
         { type := "delete_file", path := "c.txt", summary := "Deleted c.txt" }] := by decide

theorem takeWhile_all {α : Type} {p : α → Bool} :
    ∀ {l : List α}, (∀ x ∈ l, p x = true) → l.takeWhile p = l := by
  intro l
  induction l with
  | nil => intro _; rfl
  | cons a rest ih =>
    intro h
    rw [List.takeWhile_cons, if_pos (h a (List.mem_cons_self a rest))]
    rw [ih (fun x hx => h x (List.mem_cons_of_mem a hx))]

theorem takeWhile_append_stop {α : Type} {p : α → Bool} {c : α} :
    ∀ {l1 l2 : List α}, (∀ x ∈ l1, p x = true) → p c = false →
      (l1 ++ c :: l2).takeWhile p = l1 := by
  intro l1
  induction l1 with
  | nil =>
    intro l2 _ hc
    rw [List.nil_append, List.takeWhile_cons, if_neg (by simp [hc])]
  | cons a rest ih =>
    intro l2 h hc
    rw [List.cons_append, List.takeWhile_cons, if_pos (h a (List.mem_cons_self a rest))]
    rw [ih (fun x hx => h x (List.mem_cons_of_mem a hx)) hc]

/-- The shape of a nonempty `PurePath.suffix`: a dot followed by the
reversed maximal dot-free run at the end of the name, which is nonempty
and strictly shorter than the name minus one. -/
theorem extOfName_of_ne (name : List Char) (h : extOfName name ≠ []) :
    extOfName name = '.' :: (name.reverse.takeWhile (fun c => c ≠ '.')).reverse ∧
    (name.reverse.takeWhile (fun c => c ≠ '.')).length ≠ 0 := by
  unfold extOfName at h ⊢
  split at h
  · exact absurd rfl h
  next h1 =>
    split at h
    · exact absurd rfl h
    next h2 =>
      split at h
      · exact absurd rfl h
      next h3 =>
        rw [if_neg h1, if_neg h2, if_neg h3]
        exact ⟨rfl, h2⟩

/-- Appending `_edited` before the suffix does not change the suffix. -/
theorem extOfName_companionName (name : List Char) (h : extOfName name ≠ []) :
    extOfName (companionName name) = extOfName name := by
  obtain ⟨hext, hA⟩ := extOfName_of_ne name h
  have hAmem : ∀ c ∈ name.reverse.takeWhile (fun c => c ≠ '.'), (c ≠ '.') := by
    intro c hc
    have h2 := List.mem_takeWhile_imp hc
    exact of_decide_eq_true h2
  have hrev : (companionName name).reverse
      = name.reverse.takeWhile (fun c => c ≠ '.') ++
        '.' :: ("_edited".data.reverse ++ (name.take (name.length - (extOfName name).length)).reverse) := by
    unfold companionName
    rw [List.reverse_append, List.reverse_append, hext]
    rw [List.reverse_cons, List.reverse_reverse]
    simp [List.append_assoc]
  have htake : ((companionName name).reverse).takeWhile (fun c => c ≠ '.')
      = name.reverse.takeWhile (fun c => c ≠ '.') := by
    rw [hrev]
    exact takeWhile_append_stop (fun x hx => decide_eq_true (hAmem x hx)) (by decide)
  have hlen : (companionName name).length
      = (name.take (name.length - (extOfName name).length)).length + 7 +
        (1 + (name.reverse.takeWhile (fun c => c ≠ '.')).length) := by
    unfold companionName
    rw [hext]
    simp [List.length_append]
    omega
  conv_lhs => rw [extOfName.eq_def]
  rw [htake, hlen]
  rw [if_neg (by omega), if_neg hA, if_neg (by omega), hext]

theorem mem_of_mem_takeWhile {α : Type} {p : α → Bool} :
    ∀ {l : List α} {a : α}, a ∈ l.takeWhile p → a ∈ l := by
  intro l
  induction l with
  | nil => intro a h; simpa using h
  | cons b rest ih =>
    intro a h
    rw [List.takeWhile_cons] at h
    by_cases hb : p b = true
    · rw [if_pos hb] at h
      rcases List.mem_cons.mp h with h | h
      · exact h ▸ List.mem_cons_self b rest
      · exact List.mem_cons_of_mem b (ih h)
    · rw [if_neg hb] at h
      simp at h

/-- The directory part returned by `splitLastSlash` is the reversed
remainder after the dot-free... slash-free suffix. -/
theorem splitLastSlash_fst (cs : List Char) :
    (splitLastSlash cs).1 = (cs.reverse.dropWhile (fun c => c ≠ '/')).reverse := by
  simp only [splitLastSlash]
  set A := cs.reverse.takeWhile (fun c => c ≠ '/') with hA
  set D := cs.reverse.dropWhile (fun c => c ≠ '/') with hD
  have hsplit : A ++ D = cs.reverse := by
    rw [hA, hD]; exact List.takeWhile_append_dropWhile _ _
  have hcs : cs = D.reverse ++ A.reverse := by
    conv_lhs => rw [← List.reverse_reverse cs, ← hsplit]
    rw [List.reverse_append]
  have hlen : cs.length = A.length + D.length := by
    have h2 := congrArg List.length hsplit
    simp only [List.length_append, List.length_reverse] at h2
    omega
  have hlen2 : cs.length - A.length = D.reverse.length := by
    rw [List.length_reverse]; omega
  rw [hlen2]
  conv_lhs => rw [hcs]
  rw [List.take_left]

/-- Office extensions are preserved by the companion transformation. -/
theorem fileExt_companionOutputPath (rel : String)
    (h : OFFICE_EXTENSIONS.contains (fileExt rel) = true) :
    fileExt (companionOutputPath rel) = fileExt rel := by
  have hextne : extOfName (baseNameChars rel) ≠ [] := by
    intro hnil
    rw [fileExt, hnil] at h
    simp at h
    exact absurd h (by decide)
  have hnmSlash : ∀ c ∈ baseNameChars rel, c ≠ '/' := by
    intro c hc
    rw [baseNameChars, splitLastSlash] at hc
    simp only [List.mem_reverse] at hc
    have h2 := List.mem_takeWhile_imp hc
    exact of_decide_eq_true h2
  have hcompSlash : ∀ c ∈ companionName (baseNameChars rel), c ≠ '/' := by
    intro c hc
    rw [companionName] at hc
    rcases List.mem_append.mp hc with hc | hc
    · rcases List.mem_append.mp hc with hc | hc
      · exact hnmSlash c (List.mem_of_mem_take hc)
      · fin_cases hc <;> decide
    · obtain ⟨hext, _⟩ := extOfName_of_ne _ hextne
      rw [hext] at hc
      rcases List.mem_cons.mp hc with hc | hc
      · rw [hc]; decide
      · rw [List.mem_reverse] at hc
        exact hnmSlash c (List.mem_reverse.mp (mem_of_mem_takeWhile hc))
  have hbase : baseNameChars (companionOutputPath rel)
      = companionName (baseNameChars rel) := by
    rw [companionOutputPath, baseNameChars]
    show (((splitLastSlash rel.data).1 ++ companionName (baseNameChars rel)).reverse.takeWhile
        (fun c => c ≠ '/')).reverse = _
    rw [List.reverse_append]
    rw [splitLastSlash_fst, List.reverse_reverse]
    cases hD : rel.data.reverse.dropWhile (fun c => c ≠ '/') with
    | nil =>
      rw [List.append_nil]
      rw [takeWhile_all (fun x hx =>
        decide_eq_true (hcompSlash x (List.mem_reverse.mp hx)))]
      rw [List.reverse_reverse]
    | cons d t =>
      have hd : decide (d ≠ '/') = false := dropWhile_head_false _ _ d t hD
      rw [takeWhile_append_stop (fun x hx =>
        decide_eq_true (hcompSlash x (List.mem_reverse.mp hx))) hd]
      rw [List.reverse_reverse]
  rw [fileExt, hbase, extOfName_companionName _ hextne, ← fileExt]

/-- A companion output path never collides with a path of a different
extension: it keeps the office extension of its source. -/
theorem companion_ne_of_ext (x B : String)
    (hx : OFFICE_EXTENSIONS.contains (fileExt x) = true)
    (hB : OFFICE_EXTENSIONS.contains (fileExt B) = false) :
    companionOutputPath x ≠ B := by
  intro he
  rw [← he, fileExt_companionOutputPath x hx, hx] at hB
  cases hB

theorem bucketFind_bucketInsert (b : List (String × List String)) (h rel k : String) :
    bucketFind (bucketInsert b h rel) k
      = if k = h then bucketFind b k ++ [rel] else bucketFind b k := by
  induction b with
  | nil =>
    by_cases hk : k = h
    · subst hk; simp [bucketInsert, bucketFind]
    · simp [bucketInsert, bucketFind, hk, show ¬h = k from fun he => hk he.symm]
  | cons p rest ih =>
    obtain ⟨pk, pv⟩ := p
    by_cases hp : pk = h
    · subst hp
      by_cases hk : pk = k
      · subst hk
        simp [bucketInsert, bucketFind]
      · simp [bucketInsert, bucketFind, hk, show ¬k = pk from fun he => hk he.symm]
    · by_cases hk : pk = k
      · subst hk
        simp [bucketInsert, bucketFind, hp, show ¬pk = h from hp]
      · simp [bucketInsert, bucketFind, hp, hk, ih]

theorem bucketFind_bucketsOf (original : List (String × String)) :
    ∀ (l : List String) (buckets : List (String × List String)) (h : String),
      bucketFind (bucketsOf original l buckets) h
        = bucketFind buckets h ++ l.filter (fun r => invLookup original r == some h) := by
  intro l
  induction l with
  | nil => intro buckets h; simp [bucketsOf]
  | cons rel rest ih =>
    intro buckets h
    rw [bucketsOf]
    cases hlook : invLookup original rel with
    | none =>
      rw [ih]
      congr 1
      rw [List.filter_cons, if_neg (by simp [hlook])]
    | some hh =>
      rw [ih, bucketFind_bucketInsert, List.filter_cons]
      by_cases hhh : h = hh
      · rw [if_pos hhh, if_pos (by simp [hlook, hhh])]
        simp [List.append_assoc]
      · rw [if_neg hhh, if_neg (by simp [hlook]; exact fun he => hhh he.symm)]

theorem bucketPop_of_find (h : String) :
    ∀ (b : List (String × List String)) (x : String) (xs : List String),
      bucketFind b h = x :: xs →
      (bucketPop b h).1 = some x ∧ bucketFind (bucketPop b h).2 h = xs := by
  intro b
  induction b with
  | nil => intro x xs hfind; cases hfind
  | cons p rest ih =>
    obtain ⟨pk, pv⟩ := p
    intro x xs hfind
    by_cases hp : pk = h
    · subst hp
      simp only [bucketFind, if_pos rfl] at hfind
      subst hfind
      simp [bucketPop, bucketFind]
    · simp only [bucketFind, if_neg hp] at hfind
      have hrec := ih x xs hfind
      cases hbp : bucketPop rest h with
      | mk r rest' =>
        rw [hbp] at hrec
        simp only [bucketPop, if_neg hp, hbp]
        exact ⟨hrec.1, by simp only [bucketFind, if_neg hp]; exact hrec.2⟩

theorem bucketPop_find_other (h k : String) (hne : ¬k = h) :
    ∀ b : List (String × List String),
      bucketFind (bucketPop b h).2 k = bucketFind b k := by
  intro b
  induction b with
  | nil => simp [bucketPop]
  | cons p rest ih =>
    obtain ⟨pk, pv⟩ := p
    by_cases hp : pk = h
    · subst hp
      cases pv with
      | nil => simp [bucketPop]
      | cons v vs =>
        simp only [bucketPop, if_pos rfl]
        simp only [bucketFind]
        by_cases hpk : pk = k
        · exact absurd (hpk.symm.trans rfl) (fun he => hne (by rw [he]))
        · rw [if_neg hpk, if_neg hpk]
    · cases hbp : bucketPop rest h with
      | mk r rest' =>
        simp only [bucketPop, if_neg hp, hbp]
        simp only [bucketFind]
        by_cases hpk : pk = k
        · rw [if_pos hpk, if_pos hpk]
        · rw [if_neg hpk, if_neg hpk]
          have := ih
          rw [hbp] at this
          exact this

theorem bucketPop_some_mem (h x : String) :
    ∀ b : List (String × List String),
      (bucketPop b h).1 = some x → x ∈ bucketFind b h := by
  intro b
  induction b with
  | nil => intro hp; simp [bucketPop] at hp
  | cons p rest ih =>
    obtain ⟨pk, pv⟩ := p
    intro hpop
    by_cases hp : pk = h
    · subst hp
      cases pv with
      | nil => simp [bucketPop] at hpop
      | cons v vs =>
        simp only [bucketPop, if_pos rfl] at hpop
        simp only [bucketFind, if_pos rfl]
        cases hpop
        exact List.mem_cons_self _ _
    · cases hbp : bucketPop rest h with
      | mk r rest' =>
        simp only [bucketPop, if_neg hp, hbp] at hpop
        simp only [bucketFind, if_neg hp]
        apply ih
        rw [hbp]
        exact hpop

theorem bucketPop_find_self (h : String) :
    ∀ b : List (String × List String),
      bucketFind (bucketPop b h).2 h = (bucketFind b h).tail := by
  intro b
  induction b with
  | nil => simp [bucketPop, bucketFind]
  | cons p rest ih =>
    obtain ⟨pk, pv⟩ := p
    by_cases hp : pk = h
    · subst hp
      cases pv with
      | nil => simp [bucketPop, bucketFind]
      | cons v vs => simp [bucketPop, bucketFind]
    · cases hbp : bucketPop rest h with
      | mk r rest' =>
        simp only [bucketPop, if_neg hp, hbp]
        simp only [bucketFind, if_neg hp]
        have h2 := ih
        rw [hbp] at h2
        exact h2

theorem bucketPop_sub (h k y : String) (b : List (String × List String)) :
    y ∈ bucketFind (bucketPop b h).2 k → y ∈ bucketFind b k := by
  intro hy
  by_cases hk : k = h
  · subst hk
    rw [bucketPop_find_self] at hy
    cases hfk : bucketFind b k with
    | nil => rw [hfk] at hy; simp at hy
    | cons x xs =>
      rw [hfk] at hy
      exact List.mem_cons_of_mem x (by simpa using hy)
  · rwa [bucketPop_find_other h k hk] at hy

theorem pairLoop_cons_none (prev : List (String × String)) (rel : String)
    (rest : List String) (buckets : List (String × List String))
    (hlook : invLookup prev rel = none) :
    pairLoop prev (rel :: rest) buckets = pairLoop prev rest buckets := by
  rw [pairLoop, hlook]

theorem pairLoop_cons_some_some (prev : List (String × String)) (rel : String)
    (rest : List String) (buckets : List (String × List String)) (hh old : String)
    (b' : List (String × List String))
    (hlook : invLookup prev rel = some hh) (hpop : bucketPop buckets hh = (some old, b')) :
    pairLoop prev (rel :: rest) buckets = (old, rel) :: pairLoop prev rest b' := by
  rw [pairLoop, hlook]
  show (match bucketPop buckets hh with
        | (some oldRel, buckets') => (oldRel, rel) :: pairLoop prev rest buckets'
        | (none, buckets') => pairLoop prev rest buckets') = _
  rw [hpop]

theorem pairLoop_cons_some_none (prev : List (String × String)) (rel : String)
    (rest : List String) (buckets : List (String × List String)) (hh : String)
    (b' : List (String × List String))
    (hlook : invLookup prev rel = some hh) (hpop : bucketPop buckets hh = (none, b')) :
    pairLoop prev (rel :: rest) buckets = pairLoop prev rest b' := by
  rw [pairLoop, hlook]
  show (match bucketPop buckets hh with
        | (some oldRel, buckets') => (oldRel, rel) :: pairLoop prev rest buckets'
        | (none, buckets') => pairLoop prev rest buckets') = _
  rw [hpop]

theorem pairLoop_snd_mem (prev : List (String × String)) :
    ∀ (L : List String) (buckets : List (String × List String)) (o n : String),
      (o, n) ∈ pairLoop prev L buckets → n ∈ L := by
  intro L
  induction L with
  | nil => intro buckets o n h; simp [pairLoop] at h
  | cons rel rest ih =>
    intro buckets o n h
    cases hlook : invLookup prev rel with
    | none =>
      rw [pairLoop_cons_none prev rel rest buckets hlook] at h
      exact List.mem_cons_of_mem rel (ih buckets o n h)
    | some hh =>
      cases hpop : bucketPop buckets hh with
      | mk ropt b' =>
        cases ropt with
        | none =>
          rw [pairLoop_cons_some_none prev rel rest buckets hh b' hlook hpop] at h
          exact List.mem_cons_of_mem rel (ih b' o n h)
        | some old =>
          rw [pairLoop_cons_some_some prev rel rest buckets hh old b' hlook hpop] at h
          rcases List.mem_cons.mp h with h | h
          · cases h; exact List.mem_cons_self rel rest
          · exact List.mem_cons_of_mem rel (ih b' o n h)

theorem pairLoop_fst_mem (prev : List (String × String)) :
    ∀ (L : List String) (buckets : List (String × List String)) (o n : String),
      (o, n) ∈ pairLoop prev L buckets → ∃ h', o ∈ bucketFind buckets h' := by
  intro L
  induction L with
  | nil => intro buckets o n h; simp [pairLoop] at h
  | cons rel rest ih =>
    intro buckets o n h
    cases hlook : invLookup prev rel with
    | none =>
      rw [pairLoop_cons_none prev rel rest buckets hlook] at h
      exact ih buckets o n h
    | some hh =>
      cases hpop : bucketPop buckets hh with
      | mk ropt b' =>
        cases ropt with
        | none =>
          rw [pairLoop_cons_some_none prev rel rest buckets hh b' hlook hpop] at h
          obtain ⟨h', hmem⟩ := ih b' o n h
          exact ⟨h', by
            have h2 := bucketPop_sub hh h' o buckets
            rw [hpop] at h2
            exact h2 hmem⟩
        | some old =>
          rw [pairLoop_cons_some_some prev rel rest buckets hh old b' hlook hpop] at h
          rcases List.mem_cons.mp h with h | h
          · cases h
            exact ⟨hh, by
              have h2 := bucketPop_some_mem hh o buckets
              rw [hpop] at h2
              exact h2 rfl⟩
          · obtain ⟨h', hmem⟩ := ih b' o n h
            exact ⟨h', by
              have h2 := bucketPop_sub hh h' o buckets
              rw [hpop] at h2
              exact h2 hmem⟩

theorem pairLoop_unique (prev : List (String × String)) (hh A B : String)
    (hB : invLookup prev B = some hh) :
    ∀ (L : List String) (buckets : List (String × List String)),
      L.Nodup → B ∈ L →
      (∀ r ∈ L, r ≠ B → ¬invLookup prev r = some hh) →
      (∀ h', A ∈ bucketFind buckets h' → h' = hh) →
      bucketFind buckets hh = [A] →
      (A, B) ∈ pairLoop prev L buckets ∧
      ∀ p ∈ pairLoop prev L buckets, (p.1 = A → p = (A, B)) ∧ (p.2 = B → p = (A, B)) := by
  intro L
  induction L with
  | nil => intro buckets _ hBL; cases hBL
  | cons rel rest ih =>
    intro buckets hnodup hBL huniq hAonly hfind
    by_cases hr : rel = B
    · subst hr
      obtain ⟨hpop1, hpop2⟩ := bucketPop_of_find hh buckets A [] hfind
      cases hpop : bucketPop buckets hh with
      | mk ropt b' =>
        rw [hpop] at hpop1 hpop2
        have hpop2' : bucketFind b' hh = [] := hpop2
        subst hpop1
        have hres : pairLoop prev (rel :: rest) buckets
            = (A, rel) :: pairLoop prev rest b' :=
          pairLoop_cons_some_some prev rel rest buckets hh A b' hB hpop
        rw [hres]
        have hBnotrest : rel ∉ rest := (List.nodup_cons.mp hnodup).1
        refine ⟨List.mem_cons_self _ _, ?_⟩
        intro p hp
        rcases List.mem_cons.mp hp with hp | hp
        · exact ⟨fun _ => hp, fun _ => hp⟩
        · constructor
          · intro hpA
            exfalso
            obtain ⟨h', hmem⟩ := pairLoop_fst_mem prev rest b' p.1 p.2 (by
              simpa using hp)
            by_cases hcase : h' = hh
            · rw [hcase, hpop2'] at hmem
              rw [hpA] at hmem
              simp at hmem
            · have heq := bucketPop_find_other hh h' hcase buckets
              rw [hpop] at heq
              rw [heq] at hmem
              rw [hpA] at hmem
              exact hcase (hAonly h' hmem)
          · intro hpB
            exfalso
            have := pairLoop_snd_mem prev rest b' p.1 p.2 (by simpa using hp)
            rw [hpB] at this
            exact hBnotrest this
    · have hlr : ¬invLookup prev rel = some hh :=
        huniq rel (List.mem_cons_self rel rest) hr
      have hBrest : B ∈ rest := by
        rcases List.mem_cons.mp hBL with h | h
        · exact absurd h.symm hr
        · exact h
      have hnodup' : rest.Nodup := (List.nodup_cons.mp hnodup).2
      have huniq' : ∀ r ∈ rest, r ≠ B → ¬invLookup prev r = some hh :=
        fun r hrr => huniq r (List.mem_cons_of_mem rel hrr)
      cases hlook : invLookup prev rel with
      | none =>
        have hres : pairLoop prev (rel :: rest) buckets = pairLoop prev rest buckets :=
          pairLoop_cons_none prev rel rest buckets hlook
        rw [hres]
        exact ih buckets hnodup' hBrest huniq' hAonly hfind
      | some h' =>
        have hne : ¬h' = hh := fun he => hlr (by rw [hlook, he])
        cases hpop : bucketPop buckets h' with
        | mk ropt b' =>
          have hAonly' : ∀ h'', A ∈ bucketFind b' h'' → h'' = hh := by
            intro h'' hmem
            apply hAonly h''
            have := bucketPop_sub h' h'' A buckets
            rw [hpop] at this
            exact this hmem
          have hfind' : bucketFind b' hh = [A] := by
            have heq := bucketPop_find_other h' hh (fun he => hne he.symm) buckets
            rw [hpop] at heq
            rw [heq, hfind]
          cases ropt with
          | none =>
            have hres : pairLoop prev (rel :: rest) buckets = pairLoop prev rest b' :=
              pairLoop_cons_some_none prev rel rest buckets h' b' hlook hpop
            rw [hres]
            exact ih b' hnodup' hBrest huniq' hAonly' hfind'
          | some old =>
            have hres : pairLoop prev (rel :: rest) buckets
                = (old, rel) :: pairLoop prev rest b' :=
              pairLoop_cons_some_some prev rel rest buckets h' old b' hlook hpop
            rw [hres]
            have hrec := ih b' hnodup' hBrest huniq' hAonly' hfind'
            have holdA : ¬old = A := by
              intro he
              subst he
              have hmem := bucketPop_some_mem h' old buckets
              rw [hpop] at hmem
              exact hne (hAonly h' (hmem rfl))
            refine ⟨List.mem_cons_of_mem _ hrec.1, ?_⟩
            intro p hp
            rcases List.mem_cons.mp hp with hp | hp
            · subst hp
              exact ⟨fun hpA => absurd hpA holdA, fun hpB => absurd hpB hr⟩
            · exact hrec.2 p hp

theorem filter_eq_singleton {p : String → Bool} :
    ∀ {l : List String} {A : String}, l.Nodup → A ∈ l →
      (∀ r ∈ l, (p r = true ↔ r = A)) → l.filter p = [A] := by
  intro l
  induction l with
  | nil => intro A _ hA; cases hA
  | cons a rest ih =>
    intro A hnodup hA hiff
    by_cases ha : a = A
    · subst ha
      rw [List.filter_cons,
        if_pos ((hiff a (List.mem_cons_self a rest)).mpr rfl)]
      have hrest : rest.filter p = [] := by
        rw [List.filter_eq_nil_iff]
        intro r hr hp
        have := (hiff r (List.mem_cons_of_mem a hr)).mp hp
        subst this
        exact (List.nodup_cons.mp hnodup).1 hr
      rw [hrest]
    · have hpa : p a = false := by
        cases hpa : p a
        · rfl
        · exact absurd ((hiff a (List.mem_cons_self a rest)).mp hpa) ha
      rw [List.filter_cons, if_neg (by simp [hpa])]
      rcases List.mem_cons.mp hA with h | h
      · exact absurd h.symm ha
      · exact ih (List.nodup_cons.mp hnodup).2 h
          (fun r hr => hiff r (List.mem_cons_of_mem a hr))

theorem invLookup_mem {inv : List (String × String)} {r h : String}
    (hl : invLookup inv r = some h) : r ∈ inv.map Prod.fst := by
  rw [invLookup] at hl
  rw [Option.map_eq_some'] at hl
  obtain ⟨q, hq, _⟩ := hl
  have hmem := List.mem_of_find?_eq_some hq
  have hpq := List.find?_some hq
  have : q.1 = r := of_decide_eq_true hpq
  rw [← this]
  exact List.mem_map_of_mem Prod.fst hmem

/-- Case analysis of `_normalize_office_change`: either the change passes
through untouched, or it is an edit/rename of an office file and becomes a
companion `output_file`. -/
theorem normalizeOfficeChange_cases (ch : Change) :
    normalizeOfficeChange ch = ch ∨
    ((ch.type = "edit_file" ∨ ch.type = "rename_file") ∧
      OFFICE_EXTENSIONS.contains (fileExt (changeRelOrFrom ch)) = true ∧
      (normalizeOfficeChange ch).type = "output_file" ∧
      (normalizeOfficeChange ch).path = companionOutputPath (changeRelOrFrom ch)) := by
  cases hoff : OFFICE_EXTENSIONS.contains (fileExt (changeRelOrFrom ch)) with
  | false => left; rw [normalizeOfficeChange, hoff]; rfl
  | true =>
    by_cases hty : (ch.type = "edit_file" || ch.type = "rename_file") = true
    · right
      refine ⟨by simpa using hty, rfl, ?_, ?_⟩ <;>
        rw [normalizeOfficeChange, hoff, if_neg (by simp), if_pos hty]
    · left
      rw [normalizeOfficeChange, hoff, if_neg (by simp), if_neg hty]

/-- C7 (amended): when the deleted file `A` is the only deleted file with
hash `hh` and the created file `B` the only created file with that hash,
and `B` does not carry an office-document extension, the change set
reports one `rename_file` change from `A` to `B` and contains neither a
`delete_file` change for `A` nor an `output_file` change for `B`. -/
theorem derive_rename_pairing (original preview : List (String × String)) (A B hh : String)
    (hnodupO : (original.map Prod.fst).Nodup)
    (hnodupP : (preview.map Prod.fst).Nodup)
    (hAorig : invLookup original A = some hh)
    (hAnotPrev : A ∉ preview.map Prod.fst)
    (hBprev : invLookup preview B = some hh)
    (hBnotOrig : B ∉ original.map Prod.fst)
    (huniqD : ∀ r ∈ original.map Prod.fst, r ∉ preview.map Prod.fst → r ≠ A →
      ¬invLookup original r = some hh)
    (huniqC : ∀ r ∈ preview.map Prod.fst, r ∉ original.map Prod.fst → r ≠ B →
      ¬invLookup preview r = some hh)
    (hBext : OFFICE_EXTENSIONS.contains (fileExt B) = false)
    (hBne : B ≠ "") :
    ({ type := "rename_file", path := B, from_path := some A, source_path := B,
       summary := "Renamed " ++ A ++ " -> " ++ B } : Change)
        ∈ deriveChangeSet original preview ∧
    (∀ c ∈ deriveChangeSet original preview, ¬(c.type = "delete_file" ∧ c.path = A)) ∧
    (∀ c ∈ deriveChangeSet original preview, ¬(c.type = "output_file" ∧ c.path = B)) := by
  have hAin : A ∈ original.map Prod.fst := invLookup_mem hAorig
  have hBin : B ∈ preview.map Prod.fst := invLookup_mem hBprev
  have hAdel : A ∈ (original.map Prod.fst).filter
      (fun r => !(preview.map Prod.fst).contains r) := by
    rw [List.mem_filter]
    refine ⟨hAin, ?_⟩
    simp only [Bool.not_eq_true']
    cases hc : (preview.map Prod.fst).contains A
    · rfl
    · exact absurd (List.mem_of_elem_eq_true hc) hAnotPrev
  have hBcre : B ∈ (preview.map Prod.fst).filter
      (fun r => !(original.map Prod.fst).contains r) := by
    rw [List.mem_filter]
    refine ⟨hBin, ?_⟩
    cases hc : (original.map Prod.fst).contains B
    · rfl
    · exact absurd (List.mem_of_elem_eq_true hc) hBnotOrig
  have hmemD : ∀ r, r ∈ (original.map Prod.fst).filter
      (fun r => !(preview.map Prod.fst).contains r) →
      r ∈ original.map Prod.fst ∧ r ∉ preview.map Prod.fst := by
    intro r hr
    rw [List.mem_filter] at hr
    refine ⟨hr.1, fun hmem => ?_⟩
    have := hr.2
    rw [List.contains_eq_any_beq] at this
    simp only [Bool.not_eq_true'] at this
    rw [List.any_eq_false] at this
    have := this r hmem
    simp at this
  have hmemC : ∀ r, r ∈ (preview.map Prod.fst).filter
      (fun r => !(original.map Prod.fst).contains r) →
      r ∈ preview.map Prod.fst ∧ r ∉ original.map Prod.fst := by
    intro r hr
    rw [List.mem_filter] at hr
    refine ⟨hr.1, fun hmem => ?_⟩
    have := hr.2
    rw [List.contains_eq_any_beq] at this
    simp only [Bool.not_eq_true'] at this
    rw [List.any_eq_false] at this
    have := this r hmem
    simp at this
  have hfind : bucketFind (bucketsOf original
      (sortStr ((original.map Prod.fst).filter
        (fun r => !(preview.map Prod.fst).contains r))) []) hh = [A] := by
    rw [bucketFind_bucketsOf]
    rw [show bucketFind [] hh = [] from rfl, List.nil_append]
    apply filter_eq_singleton
    · exact ((insertionSort_perm _ _).nodup_iff).mpr (hnodupO.filter _)
    · exact mem_sortStr.mpr hAdel
    · intro r hr
      have hr0 := mem_sortStr.mp hr
      obtain ⟨hrO, hrP⟩ := hmemD r hr0
      constructor
      · intro hbeq
        have hlr : invLookup original r = some hh := by
          cases hl : invLookup original r with
          | none => rw [hl] at hbeq; simp at hbeq
          | some x =>
            rw [hl] at hbeq
            simp at hbeq
            rw [hbeq]
        by_cases hrA : r = A
        · exact hrA
        · exact absurd hlr (huniqD r hrO hrP hrA)
      · intro hrA
        subst hrA
        rw [hAorig]
        simp
  have hAonly : ∀ h', A ∈ bucketFind (bucketsOf original
      (sortStr ((original.map Prod.fst).filter
        (fun r => !(preview.map Prod.fst).contains r))) []) h' → h' = hh := by
    intro h' hmem
    rw [bucketFind_bucketsOf, show bucketFind [] h' = [] from rfl,
      List.nil_append] at hmem
    rw [List.mem_filter] at hmem
    have := hmem.2
    rw [hAorig] at this
    simp at this
    rw [this]
  have hnodupL : (sortStr ((preview.map Prod.fst).filter
      (fun r => !(original.map Prod.fst).contains r))).Nodup :=
    ((insertionSort_perm _ _).nodup_iff).mpr (hnodupP.filter _)
  have hBL : B ∈ sortStr ((preview.map Prod.fst).filter
      (fun r => !(original.map Prod.fst).contains r)) := mem_sortStr.mpr hBcre
  have huniqL : ∀ r ∈ sortStr ((preview.map Prod.fst).filter
      (fun r => !(original.map Prod.fst).contains r)), r ≠ B →
      ¬invLookup preview r = some hh := by
    intro r hr hrB
    obtain ⟨hrP, hrO⟩ := hmemC r (mem_sortStr.mp hr)
    exact huniqC r hrP hrO hrB
  obtain ⟨hABmem, hABuniq⟩ := pairLoop_unique preview hh A B hBprev _ _
    hnodupL hBL huniqL hAonly hfind
  -- notation for the run of the derivation
  rw [deriveChangeSet]
  simp only [List.append_assoc]
  constructor
  · apply List.mem_append_left
    refine List.mem_map.mpr ⟨(A, B), mem_sortPairs.mpr hABmem, ?_⟩
    have hrel : changeRelOrFrom
        { type := "rename_file", path := B, from_path := some A, source_path := B,
          summary := "Renamed " ++ A ++ " -> " ++ B } = B := by
      simp [changeRelOrFrom, hBne]
    rw [normalizeOfficeChange, hrel, hBext]
    rfl
  · constructor
    · intro c hc
      rintro ⟨hty, hpath⟩
      rcases List.mem_append.mp hc with hc | hc
      · -- rename group
        obtain ⟨pq, _, hcn0⟩ := List.mem_map.mp hc
        have hcn : normalizeOfficeChange
            { type := "rename_file", from_path := some pq.1, path := pq.2,
              source_path := pq.2, summary := "Renamed " ++ pq.1 ++ " -> " ++ pq.2 }
            = c := hcn0
        rw [← hcn] at hty
        rcases normalizeOfficeChange_cases
            { type := "rename_file", from_path := some pq.1, path := pq.2,
              source_path := pq.2, summary := "Renamed " ++ pq.1 ++ " -> " ++ pq.2 } with
          hid | ⟨_, _, hty2, _⟩
        · rw [hid] at hty; simp at hty
        · rw [hty2] at hty; simp at hty
      rcases List.mem_append.mp hc with hc | hc
      · -- created group
        obtain ⟨rel, _, hcn0⟩ := List.mem_map.mp hc
        have hcn : normalizeOfficeChange
            { type := "output_file", path := rel, source_path := rel,
              summary := "Created " ++ rel } = c := hcn0
        rw [← hcn] at hty
        rcases normalizeOfficeChange_cases
            { type := "output_file", path := rel, source_path := rel,
              summary := "Created " ++ rel } with hid | ⟨_, _, hty2, _⟩
        · rw [hid] at hty; simp at hty
        · rw [hty2] at hty; simp at hty
      rcases List.mem_append.mp hc with hc | hc
      · -- modified group
        obtain ⟨rel, _, hcn0⟩ := List.mem_map.mp hc
        have hcn : normalizeOfficeChange
            { type := "edit_file", path := rel, source_path := rel,
              summary := "Updated " ++ rel } = c := hcn0
        rw [← hcn] at hty
        rcases normalizeOfficeChange_cases
            { type := "edit_file", path := rel, source_path := rel,
              summary := "Updated " ++ rel } with hid | ⟨_, _, hty2, _⟩
        · rw [hid] at hty; simp at hty
        · rw [hty2] at hty; simp at hty
      · -- deleted group: the path comes from the post-pairing deleted set,
        -- from which A was removed by the rename pairing
        obtain ⟨rel, hrel, hcn0⟩ := List.mem_map.mp hc
        have hcn : normalizeOfficeChange
            { type := "delete_file", path := rel, summary := "Deleted " ++ rel }
            = c := hcn0
        rw [← hcn] at hpath
        rcases normalizeOfficeChange_cases
            { type := "delete_file", path := rel, summary := "Deleted " ++ rel } with
          hid | ⟨hty2, _, _, _⟩
        · rw [hid] at hpath
          simp only [] at hpath
          have hrel0 := mem_sortStr.mp hrel
          rw [List.mem_filter] at hrel0
          have hnp := hrel0.2
          rw [hpath] at hnp
          have hApairs : A ∈ (pairLoop preview
              (sortStr ((preview.map Prod.fst).filter
                (fun r => !(original.map Prod.fst).contains r)))
              (bucketsOf original
                (sortStr ((original.map Prod.fst).filter
                  (fun r => !(preview.map Prod.fst).contains r))) [])).map Prod.fst :=
            List.mem_map_of_mem Prod.fst hABmem
          rw [List.contains_eq_any_beq] at hnp
          simp only [Bool.not_eq_true'] at hnp
          rw [List.any_eq_false] at hnp
          have h2 := hnp A hApairs
          simp at h2
        · simp at hty2
    · intro c hc
      rintro ⟨hty, hpath⟩
      rcases List.mem_append.mp hc with hc | hc
      · -- rename group: untouched renames are not output files; companions
        -- keep an office extension, which B does not have
        obtain ⟨pq, _, hcn0⟩ := List.mem_map.mp hc
        have hcn : normalizeOfficeChange
            { type := "rename_file", from_path := some pq.1, path := pq.2,
              source_path := pq.2, summary := "Renamed " ++ pq.1 ++ " -> " ++ pq.2 }
            = c := hcn0
        rw [← hcn] at hty hpath
        rcases normalizeOfficeChange_cases
            { type := "rename_file", from_path := some pq.1, path := pq.2,
              source_path := pq.2, summary := "Renamed " ++ pq.1 ++ " -> " ++ pq.2 } with
          hid | ⟨_, hoff, _, hpath2⟩
        · rw [hid] at hty; simp at hty
        · rw [hpath2] at hpath
          exact companion_ne_of_ext _ B hoff hBext hpath
      rcases List.mem_append.mp hc with hc | hc
      · -- created group: B was removed from the created set by the pairing
        obtain ⟨rel, hrel, hcn0⟩ := List.mem_map.mp hc
        have hcn : normalizeOfficeChange
            { type := "output_file", path := rel, source_path := rel,
              summary := "Created " ++ rel } = c := hcn0
        rw [← hcn] at hpath
        rcases normalizeOfficeChange_cases
            { type := "output_file", path := rel, source_path := rel,
              summary := "Created " ++ rel } with hid | ⟨_, hoff, _, hpath2⟩
        · rw [hid] at hpath
          simp only [] at hpath
          have hrel0 := mem_sortStr.mp hrel
          rw [List.mem_filter] at hrel0
          have hnp := hrel0.2
          rw [hpath] at hnp
          have hBpairs : B ∈ (pairLoop preview
              (sortStr ((preview.map Prod.fst).filter
                (fun r => !(original.map Prod.fst).contains r)))
              (bucketsOf original
                (sortStr ((original.map Prod.fst).filter
                  (fun r => !(preview.map Prod.fst).contains r))) [])).map Prod.snd :=
            List.mem_map_of_mem Prod.snd hABmem
          rw [List.contains_eq_any_beq] at hnp
          simp only [Bool.not_eq_true'] at hnp
          rw [List.any_eq_false] at hnp
          have h2 := hnp B hBpairs
          simp at h2
        · rw [hpath2] at hpath
          exact companion_ne_of_ext _ B hoff hBext hpath
      rcases List.mem_append.mp hc with hc | hc
      · -- modified group: modified paths live in the original inventory,
        -- which does not contain B
        obtain ⟨rel, hrel, hcn0⟩ := List.mem_map.mp hc
        have hcn : normalizeOfficeChange
            { type := "edit_file", path := rel, source_path := rel,
              summary := "Updated " ++ rel } = c := hcn0
        rw [← hcn] at hpath
        rcases normalizeOfficeChange_cases
            { type := "edit_file", path := rel, source_path := rel,
              summary := "Updated " ++ rel } with hid | ⟨_, hoff, _, hpath2⟩
        · rw [hid] at hpath
          simp only [] at hpath
          have hrel0 := mem_sortStr.mp hrel
          rw [List.mem_filter, List.mem_filter] at hrel0
          have h2 := hrel0.1.1
          rw [hpath] at h2
          exact hBnotOrig h2
        · rw [hpath2] at hpath
          exact companion_ne_of_ext _ B hoff hBext hpath
      · -- deleted group
        obtain ⟨rel, _, hcn0⟩ := List.mem_map.mp hc
        have hcn : normalizeOfficeChange
            { type := "delete_file", path := rel, summary := "Deleted " ++ rel }
            = c := hcn0
        rw [← hcn] at hty
        rcases normalizeOfficeChange_cases
            { type := "delete_file", path := rel, summary := "Deleted " ++ rel } with
          hid | ⟨hty2, _, _, _⟩
        · rw [hid] at hty; simp at hty
        · simp at hty2

/-- C7 counterexample to the frozen wording: a file moved from
`a.docx` to `b.docx` (office extension) satisfies the claim's premise —
deleted at A, created at B with the same hash — yet the change set
contains no `rename_file` change at all: the rename is normalized to a
companion `output_file` change. -/
theorem derive_rename_office_counterexample :
    invLookup [("a.docx", "h1")] "a.docx" = some "h1" ∧
    invLookup [("b.docx", "h1")] "b.docx" = some "h1" ∧
    "a.docx" ∉ ([("b.docx", "h1")].map Prod.fst) ∧
    "b.docx" ∉ ([("a.docx", "h1")].map Prod.fst) ∧
    (∀ c ∈ deriveChangeSet [("a.docx", "h1")] [("b.docx", "h1")],
      ¬c.type = "rename_file") ∧
    deriveChangeSet [("a.docx", "h1")] [("b.docx", "h1")]
      = [{ type := "output_file", path := "b_edited.docx", from_path := none,
           source_path := "b.docx",
           summary := "Office source kept unchanged; companion edited output generated." }] := by
  decide

/-- C7 witness: the unique-hash rename `a.txt -> b.txt` of a non-office
file, via the pairing theorem. -/
theorem derive_rename_pairing_witness :
    (({ type := "rename_file", path := "b.txt", from_path := some "a.txt",
        source_path := "b.txt", summary := "Renamed " ++ "a.txt" ++ " -> " ++ "b.txt" } : Change)
        ∈ deriveChangeSet [("a.txt", "h1"), ("k.txt", "h2")] [("b.txt", "h1"), ("k.txt", "h2")] ∧
    (∀ c ∈ deriveChangeSet [("a.txt", "h1"), ("k.txt", "h2")] [("b.txt", "h1"), ("k.txt", "h2")],
      ¬(c.type = "delete_file" ∧ c.path = "a.txt")) ∧
    (∀ c ∈ deriveChangeSet [("a.txt", "h1"), ("k.txt", "h2")] [("b.txt", "h1"), ("k.txt", "h2")],
      ¬(c.type = "output_file" ∧ c.path = "b.txt"))) :=
  derive_rename_pairing [("a.txt", "h1"), ("k.txt", "h2")] [("b.txt", "h1"), ("k.txt", "h2")]
    "a.txt" "b.txt" "h1"
    (by decide) (by decide) (by decide) (by decide) (by decide) (by decide)
    (by decide) (by decide) (by decide) (by decide)

/-! ## File inventory (`RunOrchestrator._collect_file_inventory`)

The walked directory tree is a first-order inductive of entry lists
(isomorphic to name-keyed trees).  The walk carries the relative
directory prefix (with trailing slash) as characters; directories named
`.stash` are pruned at every level exactly as the `dirnames` surgery in
the source does, and files whose relative path is in
`IGNORED_CHANGE_PATHS` are skipped.  Content hash, size and mtime are
collapsed to the hash, the only field `_derive_change_set` reads. -/

inductive FSEntries where
  | nil
  | fileEntry (name : String) (hash : String) (rest : FSEntries)
  | dirEntry (name : String) (children : FSEntries) (rest : FSEntries)

/-- Real directory-entry names contain no slash. -/
def noSlashStr (s : String) : Bool := s.data.all (fun c => c ≠ '/')

/-- All entry names in the tree are slash-free. -/
def namesOk : FSEntries → Bool
  | .nil => true
  | .fileEntry name _ rest => noSlashStr name && namesOk rest
  | .dirEntry name children rest => noSlashStr name && namesOk children && namesOk rest

/-- The walk of `_collect_file_inventory` over one directory's entries. -/
def collectInv (pre : List Char) : FSEntries → List (String × String)
  | .nil => []
  | .fileEntry name h rest =>
    (if IGNORED_CHANGE_PATHS.contains (String.mk (pre ++ name.data)) then []
     else [(String.mk (pre ++ name.data), h)]) ++ collectInv pre rest
  | .dirEntry name children rest =>
    (if name = ".stash" then [] else collectInv (pre ++ name.data ++ ['/']) children)
      ++ collectInv pre rest

/-- `_collect_file_inventory` from the project root. -/
def collectFileInventory (root : FSEntries) : List (String × String) :=
  collectInv [] root

example : collectFileInventory
    (.fileEntry "STASH_HISTORY.md" "h0"
      (.fileEntry "a.txt" "h1"
        (.dirEntry ".stash" (.fileEntry "state.db" "h2" .nil)
          (.dirEntry "docs" (.fileEntry "b.md" "h3" .nil) .nil))))
    = [("a.txt", "h1"), ("docs/b.md", "h3")] := by decide

/-- Two decompositions of a list around a first slash agree when neither
head part contains a slash. -/
theorem prefix_slash_eq :
    ∀ (n1 n2 r1 r2 : List Char), (∀ c ∈ n1, c ≠ '/') → (∀ c ∈ n2, c ≠ '/') →
      n1 ++ '/' :: r1 = n2 ++ '/' :: r2 → n1 = n2 := by
  intro n1
  induction n1 with
  | nil =>
    intro n2 r1 r2 _ h2 he
    cases n2 with
    | nil => rfl
    | cons c cs =>
      rw [List.nil_append, List.cons_append] at he
      obtain ⟨h1, _⟩ := List.cons.inj he
      exact absurd h1 (Ne.symm (h2 c (List.mem_cons_self c cs)))
  | cons a as ih =>
    intro n2 r1 r2 h1 h2 he
    cases n2 with
    | nil =>
      rw [List.nil_append, List.cons_append] at he
      obtain ⟨ha, _⟩ := List.cons.inj he
      exact absurd ha (h1 a (List.mem_cons_self a as))
    | cons c cs =>
      rw [List.cons_append, List.cons_append] at he
      obtain ⟨ha, htl⟩ := List.cons.inj he
      rw [ha, ih cs r1 r2 (fun x hx => h1 x (List.mem_cons_of_mem a hx))
        (fun x hx => h2 x (List.mem_cons_of_mem c hx)) htl]

/-- Invariant of the walk prefix: empty, or its first slash-separated
segment is a slash-free directory name other than `.stash`. -/
def FirstSegOk (pre : List Char) : Prop :=
  pre = [] ∨ ∃ d rest, pre = d ++ '/' :: rest ∧ (∀ c ∈ d, c ≠ '/') ∧ d ≠ ".stash".data

theorem firstSegOk_extend (pre : List Char) (name : String)
    (hpre : FirstSegOk pre) (hslash : noSlashStr name = true) (hname : name ≠ ".stash") :
    FirstSegOk (pre ++ name.data ++ ['/']) := by
  rcases hpre with h | ⟨d, rest, hd, hdslash, hdne⟩
  · subst h
    refine Or.inr ⟨name.data, [], by simp, ?_, ?_⟩
    · intro c hc
      rw [noSlashStr, List.all_eq_true] at hslash
      exact of_decide_eq_true (hslash c hc)
    · intro he
      exact hname (String.ext he)
  · subst hd
    exact Or.inr ⟨d, rest ++ name.data ++ ['/'], by simp, hdslash, hdne⟩

/-- Under the prefix invariant, no walked path (prefix plus a slash-free
name) starts with `.stash/`. -/
theorem stash_not_prefix_of_firstSeg (pre u : List Char)
    (hpre : FirstSegOk pre) (hu : ∀ c ∈ u, c ≠ '/') :
    ".stash/".data.isPrefixOf (pre ++ u) = false := by
  cases hp : ".stash/".data.isPrefixOf (pre ++ u) with
  | false => rfl
  | true =>
    exfalso
    obtain ⟨t, ht⟩ := List.isPrefixOf_iff_prefix.mp hp
    have ht' : pre ++ u = ".stash".data ++ '/' :: t := by
      rw [← ht]
      simp [show (".stash/".data : List Char) = ".stash".data ++ ['/'] from rfl]
    rcases hpre with h | ⟨d, rest, hd, hdslash, hdne⟩
    · subst h
      rw [List.nil_append] at ht'
      have : '/' ∈ u := by
        rw [ht']
        exact List.mem_append.mpr (Or.inr (List.mem_cons_self _ _))
      exact hu '/' this rfl
    · subst hd
      rw [List.append_assoc, List.cons_append] at ht'
      exact hdne (prefix_slash_eq d ".stash".data (rest ++ u) t hdslash (by decide) ht')

/-- Every inventory key avoids `STASH_HISTORY.md` and the `.stash`
internal-state directory. -/
theorem collectInv_keys (pre : List Char) (es : FSEntries)
    (hpre : FirstSegOk pre) (hnames : namesOk es = true) :
    ∀ k ∈ (collectInv pre es).map Prod.fst,
      k ≠ "STASH_HISTORY.md" ∧ ".stash/".data.isPrefixOf k.data = false := by
  induction es generalizing pre with
  | nil => intro k hk; simp [collectInv] at hk
  | fileEntry name h rest ih =>
    intro k hk
    rw [namesOk, Bool.and_eq_true] at hnames
    rw [collectInv, List.map_append, List.mem_append] at hk
    rcases hk with hk | hk
    · by_cases hig : IGNORED_CHANGE_PATHS.contains (String.mk (pre ++ name.data)) = true
      · rw [if_pos hig] at hk
        simp at hk
      · rw [if_neg hig] at hk
        simp only [List.map_cons, List.map_nil, List.mem_singleton] at hk
        subst hk
        constructor
        · intro he
          apply hig
          rw [he]
          decide
        · show List.isPrefixOf _ (String.mk (pre ++ name.data)).data = false
          refine stash_not_prefix_of_firstSeg pre name.data hpre ?_
          intro c hc
          have h2 := hnames.1
          rw [noSlashStr, List.all_eq_true] at h2
          exact of_decide_eq_true (h2 c hc)
    · exact ih pre hpre hnames.2 k hk
  | dirEntry name children rest ihc ihr =>
    intro k hk
    rw [namesOk, Bool.and_eq_true, Bool.and_eq_true] at hnames
    rw [collectInv, List.map_append, List.mem_append] at hk
    rcases hk with hk | hk
    · by_cases hstash : name = ".stash"
      · rw [if_pos hstash] at hk
        simp at hk
      · rw [if_neg hstash] at hk
        exact ihc (pre ++ name.data ++ ['/'])
          (firstSegOk_extend pre name hpre hnames.1.1 hstash) hnames.1.2 k hk
    · exact ihr pre hpre hnames.2 k hk

theorem splitLastSlash_append (cs : List Char) :
    (splitLastSlash cs).1 ++ (splitLastSlash cs).2 = cs := by
  rw [splitLastSlash_fst]
  show _ ++ (cs.reverse.takeWhile (fun c => c ≠ '/')).reverse = cs
  rw [← List.reverse_append, List.takeWhile_append_dropWhile, List.reverse_reverse]

theorem baseNameChars_noSlash (rel : String) : ∀ c ∈ baseNameChars rel, c ≠ '/' := by
  intro c hc
  rw [baseNameChars, splitLastSlash] at hc
  simp only [List.mem_reverse] at hc
  have h2 := List.mem_takeWhile_imp hc
  exact of_decide_eq_true h2

theorem companionName_noSlash (rel : String) :
    ∀ c ∈ companionName (baseNameChars rel), c ≠ '/' := by
  intro c hc
  rw [companionName] at hc
  rcases List.mem_append.mp hc with hc | hc
  · rcases List.mem_append.mp hc with hc | hc
    · exact baseNameChars_noSlash rel c (List.mem_of_mem_take hc)
    · fin_cases hc <;> decide
  · by_cases hne : extOfName (baseNameChars rel) = []
    · rw [hne] at hc
      simp at hc
    · obtain ⟨hext, _⟩ := extOfName_of_ne _ hne
      rw [hext] at hc
      rcases List.mem_cons.mp hc with hc | hc
      · rw [hc]; decide
      · rw [List.mem_reverse] at hc
        exact baseNameChars_noSlash rel c (List.mem_reverse.mp (mem_of_mem_takeWhile hc))

theorem stash_isPrefix_of_append (pre0 u : List Char) (hu : ∀ c ∈ u, c ≠ '/')
    (h : ".stash/".data.isPrefixOf (pre0 ++ u) = true) :
    List.IsPrefix ".stash/".data pre0 := by
  have hpfx : List.IsPrefix ".stash/".data (pre0 ++ u) := List.isPrefixOf_iff_prefix.mp h
  rcases Nat.lt_or_ge pre0.length 7 with hlt | hge
  · exfalso
    obtain ⟨t, ht⟩ := hpfx
    have hv : (pre0 ++ u)[6]? = some '/' := by
      rw [← ht, List.getElem?_append, if_pos (by decide)]
      rfl
    rw [List.getElem?_append_right (by omega)] at hv
    exact hu '/' (List.getElem?_mem hv) rfl
  · exact (List.isPrefix_append_of_length (by simpa using hge)).mp hpfx

/-- A companion output path under `.stash/` can only come from a source
path under `.stash/`. -/
theorem stashPrefix_companionOutputPath (x : String)
    (h : ".stash/".data.isPrefixOf (companionOutputPath x).data = true) :
    ".stash/".data.isPrefixOf x.data = true := by
  have hdata : (companionOutputPath x).data
      = (splitLastSlash x.data).1 ++ companionName (baseNameChars x) := rfl
  rw [hdata] at h
  have hpre := stash_isPrefix_of_append _ _ (companionName_noSlash x) h
  apply List.isPrefixOf_iff_prefix.mpr
  rw [← splitLastSlash_append x.data]
  exact hpre.trans (List.prefix_append _ _)

/-- Every change produced by `_derive_change_set` draws its `path` and
`from_path` from the inventory keys or from office companions of such
keys: any property of all keys that is preserved by the companion
transformation holds of every change path. -/
theorem deriveChangeSet_paths (original preview : List (String × String))
    (P : String → Prop)
    (hPO : ∀ k ∈ original.map Prod.fst, P k)
    (hPP : ∀ k ∈ preview.map Prod.fst, P k)
    (hPcomp : ∀ x, P x → OFFICE_EXTENSIONS.contains (fileExt x) = true →
      P (companionOutputPath x)) :
    ∀ c ∈ deriveChangeSet original preview,
      P c.path ∧ ∀ f, c.from_path = some f → P f := by
  intro c hc
  rw [deriveChangeSet] at hc
  simp only [List.append_assoc] at hc
  have hmemD : ∀ r, r ∈ (original.map Prod.fst).filter
      (fun r => !(preview.map Prod.fst).contains r) → P r := by
    intro r hr
    exact hPO r (List.mem_filter.mp hr).1
  have hmemC : ∀ r, r ∈ (preview.map Prod.fst).filter
      (fun r => !(original.map Prod.fst).contains r) → P r := by
    intro r hr
    exact hPP r (List.mem_filter.mp hr).1
  rcases List.mem_append.mp hc with hc | hc
  · -- rename group
    obtain ⟨pq, hpq, hcn0⟩ := List.mem_map.mp hc
    have hpq' := mem_sortPairs.mp hpq
    have hPn : P pq.2 := by
      have := pairLoop_snd_mem preview _ _ pq.1 pq.2 hpq'
      exact hmemC pq.2 (mem_sortStr.mp this)
    have hPo : P pq.1 := by
      obtain ⟨h', hmem⟩ := pairLoop_fst_mem preview _ _ pq.1 pq.2 hpq'
      rw [bucketFind_bucketsOf, show bucketFind [] h' = [] from rfl,
        List.nil_append] at hmem
      have := List.mem_filter.mp hmem
      exact hmemD pq.1 (mem_sortStr.mp this.1)
    have hcn : normalizeOfficeChange
        { type := "rename_file", from_path := some pq.1, path := pq.2,
          source_path := pq.2, summary := "Renamed " ++ pq.1 ++ " -> " ++ pq.2 }
        = c := hcn0
    rcases normalizeOfficeChange_cases
        { type := "rename_file", from_path := some pq.1, path := pq.2,
          source_path := pq.2, summary := "Renamed " ++ pq.1 ++ " -> " ++ pq.2 } with
      hid | ⟨_, hoff, _, hpath2⟩
    · rw [hid] at hcn
      rw [← hcn]
      refine ⟨hPn, ?_⟩
      intro f hf
      simp only [] at hf
      cases hf
      exact hPo
    · rw [← hcn]
      constructor
      · rw [hpath2]
        have hrel : changeRelOrFrom
            { type := "rename_file", from_path := some pq.1, path := pq.2,
              source_path := pq.2, summary := "Renamed " ++ pq.1 ++ " -> " ++ pq.2 }
            = if pq.2 ≠ "" then pq.2 else pq.1 := rfl
        rw [hrel] at hpath2 hoff ⊢
        by_cases hn : pq.2 = ""
        · rw [if_neg (by simp [hn])] at hoff ⊢
          exact hPcomp pq.1 hPo hoff
        · rw [if_pos hn] at hoff ⊢
          exact hPcomp pq.2 hPn hoff
      · intro f hf
        rw [normalizeOfficeChange] at hf
        rw [hoff] at hf
        rw [if_neg (by simp)] at hf
        rw [if_pos (by simp)] at hf
        cases hf
  rcases List.mem_append.mp hc with hc | hc
  · -- created group
    obtain ⟨rel, hrel, hcn0⟩ := List.mem_map.mp hc
    have hPrel : P rel := by
      have := (List.mem_filter.mp (mem_sortStr.mp hrel)).1
      exact hmemC rel this
    have hcn : normalizeOfficeChange
        { type := "output_file", path := rel, source_path := rel,
          summary := "Created " ++ rel } = c := hcn0
    rcases normalizeOfficeChange_cases
        { type := "output_file", path := rel, source_path := rel,
          summary := "Created " ++ rel } with hid | ⟨hty2, _, _, _⟩
    · rw [hid] at hcn
      rw [← hcn]
      exact ⟨hPrel, fun f hf => by cases hf⟩
    · simp at hty2
  rcases List.mem_append.mp hc with hc | hc
  · -- modified group
    obtain ⟨rel, hrel, hcn0⟩ := List.mem_map.mp hc
    have hPrel : P rel := by
      have := (List.mem_filter.mp (List.mem_filter.mp (mem_sortStr.mp hrel)).1).1
      exact hPO rel this
    have hcn : normalizeOfficeChange
        { type := "edit_file", path := rel, source_path := rel,
          summary := "Updated " ++ rel } = c := hcn0
    rcases normalizeOfficeChange_cases
        { type := "edit_file", path := rel, source_path := rel,
          summary := "Updated " ++ rel } with hid | ⟨_, hoff, _, hpath2⟩
    · rw [hid] at hcn
      rw [← hcn]
      exact ⟨hPrel, fun f hf => by cases hf⟩
    · rw [← hcn]
      constructor
      · rw [hpath2]
        have hrel2 : changeRelOrFrom
            { type := "edit_file", path := rel, source_path := rel,
              summary := "Updated " ++ rel } = if rel ≠ "" then rel else "" := rfl
        rw [hrel2] at hpath2 hoff ⊢
        by_cases hn : rel = ""
        · exfalso
          rw [if_neg (by simp [hn])] at hoff
          rw [show fileExt "" = "" from rfl] at hoff
          exact absurd hoff (by decide)
        · rw [if_pos hn] at hoff ⊢
          exact hPcomp rel hPrel hoff
      · intro f hf
        rw [normalizeOfficeChange] at hf
        rw [hoff] at hf
        rw [if_neg (by simp)] at hf
        rw [if_pos (by simp)] at hf
        cases hf
  · -- deleted group
    obtain ⟨rel, hrel, hcn0⟩ := List.mem_map.mp hc
    have hPrel : P rel := by
      have := (List.mem_filter.mp (mem_sortStr.mp hrel)).1
      exact hmemD rel this
    have hcn : normalizeOfficeChange
        { type := "delete_file", path := rel, summary := "Deleted " ++ rel }
        = c := hcn0
    rcases normalizeOfficeChange_cases
        { type := "delete_file", path := rel, summary := "Deleted " ++ rel } with
      hid | ⟨hty2, _, _, _⟩
    · rw [hid] at hcn
      rw [← hcn]
      exact ⟨hPrel, fun f hf => by cases hf⟩
    · simp at hty2

/-- C10: no change derived from any pair of (live root, preview
workspace) trees touches `STASH_HISTORY.md` or anything under the
`.stash` internal-state directory. -/
theorem derive_changes_exclude_internal (live preview : FSEntries)
    (hl : namesOk live = true) (hp : namesOk preview = true) :
    ∀ c ∈ deriveChangeSet (collectFileInventory live) (collectFileInventory preview),
      (c.path ≠ "STASH_HISTORY.md" ∧ ".stash/".data.isPrefixOf c.path.data = false) ∧
      (∀ f, c.from_path = some f →
        f ≠ "STASH_HISTORY.md" ∧ ".stash/".data.isPrefixOf f.data = false) := by
  exact deriveChangeSet_paths _ _
    (fun k => k ≠ "STASH_HISTORY.md" ∧ ".stash/".data.isPrefixOf k.data = false)
    (collectInv_keys [] live (Or.inl rfl) hl)
    (collectInv_keys [] preview (Or.inl rfl) hp)
    (fun x hx hoff => ⟨companion_ne_of_ext x "STASH_HISTORY.md" hoff (by decide), by
      cases hsp : ".stash/".data.isPrefixOf (companionOutputPath x).data with
      | false => rfl
      | true => exact absurd (stashPrefix_companionOutputPath x hsp) (by simp [hx.2])⟩)

/-- C10 witness: a preview that edits `a.txt`, rewrites
`STASH_HISTORY.md` and adds a file under `.stash` produces changes that
never touch the history file or the internal-state directory. -/
theorem derive_changes_exclude_internal_witness :
    (namesOk (.fileEntry "a.txt" "h1" (.fileEntry "STASH_HISTORY.md" "h8" .nil)) = true ∧
     namesOk (.fileEntry "a.txt" "h2" (.fileEntry "STASH_HISTORY.md" "h9"
       (.dirEntry ".stash" (.fileEntry "x.db" "h3" .nil) .nil))) = true) ∧
    (∀ c ∈ deriveChangeSet
        (collectFileInventory (.fileEntry "a.txt" "h1" (.fileEntry "STASH_HISTORY.md" "h8" .nil)))
        (collectFileInventory (.fileEntry "a.txt" "h2" (.fileEntry "STASH_HISTORY.md" "h9"
          (.dirEntry ".stash" (.fileEntry "x.db" "h3" .nil) .nil)))),
      (c.path ≠ "STASH_HISTORY.md" ∧ ".stash/".data.isPrefixOf c.path.data = false) ∧
      (∀ f, c.from_path = some f →
        f ≠ "STASH_HISTORY.md" ∧ ".stash/".data.isPrefixOf f.data = false)) :=
  ⟨⟨by decide, by decide⟩,
   derive_changes_exclude_internal
     (.fileEntry "a.txt" "h1" (.fileEntry "STASH_HISTORY.md" "h8" .nil))
     (.fileEntry "a.txt" "h2" (.fileEntry "STASH_HISTORY.md" "h9"
       (.dirEntry ".stash" (.fileEntry "x.db" "h3" .nil) .nil)))
     (by decide) (by decide)⟩

/-! ## Run finalization (`RunOrchestrator._finalize_run_result`)

The assistant-message text assembly and the change-set manifest file are
presentation only; the embedding keeps the decision structure: derived
changes (computed only when a preview workspace exists), the merged
output-file list, the requires-confirmation flag, the change-set upsert,
the preview cleanup, the final run status and the emitted events. -/

/-- Case-insensitive de-duplication preserving first occurrences (the
`output_seen` set of lowered paths). -/
def dedupLowerAux : List String → List String → List String
  | [], _ => []
  | x :: rest, seen =>
    if seen.contains (lowerStr x) then dedupLowerAux rest seen
    else x :: dedupLowerAux rest (lowerStr x :: seen)

/-- The merged output-file list of `_finalize_run_result`: response-level
output files first, then `output_file` change paths, deduplicated
case-insensitively across both loops. -/
def mergeOutputFiles (outputFiles : List String) (changes : List Change) : List String :=
  dedupLowerAux
    (outputFiles ++ (changes.filter
      (fun ch => ch.type = "output_file" && ch.path ≠ "")).map Change.path) []

/-- The observable outcome of `_finalize_run_result`. -/
structure FinalizeOutcome where
  runStatus : String
  runFinished : Bool
  outputSummary : String
  changeSetStatus : Option String
  requiresConfirmation : Bool
  previewDeleted : Bool
  events : List String
deriving DecidableEq

/-- `_finalize_run_result`: `derivedChanges` is the result of
`_derive_change_set` (used only when the preview workspace exists),
`failures` the step-failure tally. -/
def finalizeRunResult (derivedChanges : List Change) (outputFilesForResponse : List String)
    (failures stepCount : Nat) (previewExists : Bool) : FinalizeOutcome :=
  let changes := if previewExists then derivedChanges else []
  let mergedOutputFiles := mergeOutputFiles outputFilesForResponse changes
  let requiresConfirmation := !changes.isEmpty
  let changeSetStatus :=
    if !changes.isEmpty || !mergedOutputFiles.isEmpty then
      some (if requiresConfirmation then "pending" else "none")
    else none
  if requiresConfirmation then
    { runStatus := "awaiting_confirmation", runFinished := false,
      outputSummary := toString changes.length ++ " pending change(s)",
      changeSetStatus := changeSetStatus, requiresConfirmation := true,
      previewDeleted := false,
      events := ["message_finalized", "run_confirmation_required", "run_latency_summary"] }
  else
    { runStatus := if failures ≠ 0 then "failed" else "done",
      runFinished := true,
      outputSummary :=
        if failures ≠ 0 then
          toString stepCount ++ " step(s), " ++ toString failures ++ " failed"
        else toString stepCount ++ " step(s) executed",
      changeSetStatus := changeSetStatus, requiresConfirmation := false,
      previewDeleted := previewExists,
      events := ["message_finalized",
        if failures ≠ 0 then "run_failed" else "run_completed", "run_latency_summary"] }

/-- C4: with a preview workspace present, an empty derived change set
deletes the preview and finalizes the run as done (failed when a step
failed); a nonempty change set puts the run in `awaiting_confirmation`,
persists a pending change set and keeps the preview workspace. -/
theorem finalize_run_result_confirmation (derivedChanges : List Change)
    (outputFiles : List String) (failures stepCount : Nat) :
    (derivedChanges = [] →
      (finalizeRunResult derivedChanges outputFiles failures stepCount true).previewDeleted
        = true ∧
      (finalizeRunResult derivedChanges outputFiles failures stepCount true).runStatus
        = (if failures ≠ 0 then "failed" else "done") ∧
      (finalizeRunResult derivedChanges outputFiles failures stepCount true).runFinished
        = true ∧
      (finalizeRunResult derivedChanges outputFiles failures stepCount true).requiresConfirmation
        = false) ∧
    (derivedChanges ≠ [] →
      (finalizeRunResult derivedChanges outputFiles failures stepCount true).runStatus
        = "awaiting_confirmation" ∧
      (finalizeRunResult derivedChanges outputFiles failures stepCount true).changeSetStatus
        = some "pending" ∧
      (finalizeRunResult derivedChanges outputFiles failures stepCount true).requiresConfirmation
        = true ∧
      (finalizeRunResult derivedChanges outputFiles failures stepCount true).previewDeleted
        = false ∧
      "run_confirmation_required"
        ∈ (finalizeRunResult derivedChanges outputFiles failures stepCount true).events) := by
  constructor
  · intro hempty
    subst hempty
    simp [finalizeRunResult]
  · intro hne
    have hne' : derivedChanges.isEmpty = false := by
      cases hd : derivedChanges with
      | nil => exact absurd hd hne
      | cons a l => rfl
    simp [finalizeRunResult, hne']

/-- C4 witness: both branches discharged at concrete inputs — no changes
with one failed step finalizes as failed with the preview gone; one edit
change pauses for confirmation with a pending change set and an intact
preview. -/
theorem finalize_run_result_confirmation_witness :
    ((finalizeRunResult [] ["out.txt"] 1 2 true).previewDeleted = true ∧
     (finalizeRunResult [] ["out.txt"] 1 2 true).runStatus
       = (if (1 : Nat) ≠ 0 then "failed" else "done") ∧
     (finalizeRunResult [] ["out.txt"] 1 2 true).runFinished = true ∧
     (finalizeRunResult [] ["out.txt"] 1 2 true).requiresConfirmation = false) ∧
    ((finalizeRunResult
        [{ type := "edit_file", path := "a.txt", source_path := "a.txt",
           summary := "Updated a.txt" }] [] 0 1 true).runStatus
       = "awaiting_confirmation" ∧
     (finalizeRunResult
        [{ type := "edit_file", path := "a.txt", source_path := "a.txt",
           summary := "Updated a.txt" }] [] 0 1 true).changeSetStatus = some "pending" ∧
     (finalizeRunResult
        [{ type := "edit_file", path := "a.txt", source_path := "a.txt",
           summary := "Updated a.txt" }] [] 0 1 true).requiresConfirmation = true ∧
     (finalizeRunResult
        [{ type := "edit_file", path := "a.txt", source_path := "a.txt",
           summary := "Updated a.txt" }] [] 0 1 true).previewDeleted = false ∧
     "run_confirmation_required" ∈ (finalizeRunResult
        [{ type := "edit_file", path := "a.txt", source_path := "a.txt",
           summary := "Updated a.txt" }] [] 0 1 true).events) :=
  ⟨(finalize_run_result_confirmation [] ["out.txt"] 1 2).1 rfl,
   (finalize_run_result_confirmation
      [{ type := "edit_file", path := "a.txt", source_path := "a.txt",
         summary := "Updated a.txt" }] [] 0 1).2 (by decide)⟩

/-- The nonempty-changes branch of C4 exercised concretely: one edit
change pauses for confirmation with a pending change set and an intact
preview workspace. -/
example :
    (finalizeRunResult
        [{ type := "edit_file", path := "a.txt", source_path := "a.txt",
           summary := "Updated a.txt" }] [] 0 1 true).runStatus = "awaiting_confirmation" ∧
    (finalizeRunResult
        [{ type := "edit_file", path := "a.txt", source_path := "a.txt",
           summary := "Updated a.txt" }] [] 0 1 true).changeSetStatus = some "pending" ∧
    (finalizeRunResult
        [{ type := "edit_file", path := "a.txt", source_path := "a.txt",
           summary := "Updated a.txt" }] [] 0 1 true).previewDeleted = false := by
  decide

/-! ## Apply / discard of pending change sets
(`RunOrchestrator.apply_run_changes`, `discard_run_changes`,
`_apply_change_set`)

Filesystem and database effects are modelled as an ordered trace of
operations.  Paths are component lists as in the executor section; a
stored relative path string is split on the slash (the derived change
sets only contain relative slash-separated paths).  `shutil.copytree`
versus `shutil.copy2` and per-target existence checks before deletion
only select the flavour of the operation, so a single `copy` / `delete`
operation stands for either. -/

/-- One observable operation of apply/discard, in execution order. -/
inductive FsOp where
  | copy (src dest : List String)
  | deleteLive (target : List String)
  | removePreview
  | setChangeSetStatus (status : String) (requiresConfirmation : Bool)
  | setRunStatus (status : String)
  | createMessage
  | addEvent (t : String)
deriving DecidableEq

def FsOp.isCopy : FsOp → Bool
  | .copy _ _ => true
  | _ => false

def FsOp.isDeleteLive : FsOp → Bool
  | .deleteLive _ => true
  | _ => false

/-- Does the operation touch the live project root? -/
def FsOp.writesLive : FsOp → Bool
  | .copy _ _ => true
  | .deleteLive _ => true
  | _ => false

/-- Split a relative path string on the slash into components. -/
def splitSlashAux : List Char → List Char → List String
  | [], acc => [String.mk acc.reverse]
  | c :: rest, acc =>
    if c = '/' then String.mk acc.reverse :: splitSlashAux rest []
    else splitSlashAux rest (c :: acc)

def relComps (s : String) : List String := splitSlashAux s.toList []

/-- The `copy_ops` list of `_apply_change_set`: for every
`output_file`/`edit_file`/`rename_file` change with a nonempty path,
the resolved `(preview_root / source_rel, root / rel_path)` pair,
kept only when both ends pass `ensure_inside`. -/
def copyOpsOf (root previewRoot : List String) (changes : List Change) :
    List (List String × List String) :=
  changes.filterMap (fun ch =>
    if ((ch.type = "output_file" || ch.type = "edit_file" || ch.type = "rename_file")
          && ch.path ≠ "")
        && (ensure_inside previewRoot (resolveComps (previewRoot ++ relComps
              (if ch.source_path ≠ "" then ch.source_path else ch.path)))
            && ensure_inside root (resolveComps (root ++ relComps ch.path))) then
      some (resolveComps (previewRoot ++ relComps
              (if ch.source_path ≠ "" then ch.source_path else ch.path)),
            resolveComps (root ++ relComps ch.path))
    else none)

/-- The `delete_targets` list of `_apply_change_set`: `delete_file`
paths, and `rename_file` old locations, resolved under the live root. -/
def deleteTargetsOf (root : List String) (changes : List Change) : List (List String) :=
  changes.filterMap (fun ch =>
    if ch.type = "delete_file" && ch.path ≠ "" then
      (if ensure_inside root (resolveComps (root ++ relComps ch.path)) then
        some (resolveComps (root ++ relComps ch.path)) else none)
    else if ch.type = "rename_file" && (ch.from_path.getD "") ≠ "" then
      (if ensure_inside root (resolveComps (root ++ relComps (ch.from_path.getD ""))) then
        some (resolveComps (root ++ relComps (ch.from_path.getD ""))) else none)
    else none)

/-- The `seen_deletes` de-duplication of the deletion loop. -/
def dedupDeletes : List (List String) → List (List String) → List (List String)
  | [], _ => []
  | t :: rest, seen =>
    if seen.contains t then dedupDeletes rest seen
    else t :: dedupDeletes rest (t :: seen)

/-- `_apply_change_set` as a trace: every copy (of a source that exists
in the preview) strictly before every deletion. -/
def applyChangeSetOps (root previewRoot : List String) (changes : List Change)
    (srcExists : List String → Bool) : List FsOp :=
  ((copyOpsOf root previewRoot changes).filter (fun p => srcExists p.1)).map
      (fun p => FsOp.copy p.1 p.2)
    ++ (dedupDeletes (deleteTargetsOf root changes) []).map FsOp.deleteLive

/-- The stored change-set row as read back by `get_run_change_set`:
the confirmation flag, the parsed preview path (`none` for an
empty/absent string) and the stored change list. -/
structure ChangeSetRec where
  requires_confirmation : Bool
  preview_path : Option (List String)
  changes : List Change

/-- `apply_run_changes`: `none` when the run is unknown, no change set
is stored, the change set does not require confirmation, the preview
path is empty, or the preview path escapes the stash directory;
otherwise the trace of `_apply_change_set` followed by preview cleanup,
status updates, the closing message and the completion events. -/
def applyRunChanges (root stashDir : List String) (run? : Option String)
    (changeSet? : Option ChangeSetRec) (srcExists : List String → Bool) :
    Option (List FsOp) :=
  match run? with
  | none => none
  | some _ =>
    match changeSet? with
    | none => none
    | some cs =>
      if !cs.requires_confirmation then none
      else
        match cs.preview_path with
        | none => none
        | some previewRaw =>
          if !ensure_inside stashDir previewRaw then none
          else some (applyChangeSetOps root (resolveComps previewRaw) cs.changes srcExists
            ++ [FsOp.removePreview, FsOp.setChangeSetStatus "applied" false,
                FsOp.setRunStatus "done", FsOp.createMessage,
                FsOp.addEvent "run_applied", FsOp.addEvent "message_finalized",
                FsOp.addEvent "run_completed"])

/-- `discard_run_changes`: same validity gate on run and confirmation
flag (no preview-path checks); removes the preview workspace and updates
statuses without ever touching the live root. -/
def discardRunChanges (run? : Option String) (changeSet? : Option ChangeSetRec) :
    Option (List FsOp) :=
  match run? with
  | none => none
  | some _ =>
    match changeSet? with
    | none => none
    | some cs =>
      if !cs.requires_confirmation then none
      else some [FsOp.removePreview, FsOp.setChangeSetStatus "discarded" false,
        FsOp.setRunStatus "cancelled", FsOp.createMessage,
        FsOp.addEvent "run_discarded", FsOp.addEvent "message_finalized",
        FsOp.addEvent "run_cancelled"]

theorem pairwiseOfForallMem {α : Type} {R : α → α → Prop} :
    ∀ (l : List α), (∀ a ∈ l, ∀ b ∈ l, R a b) → l.Pairwise R
  | [], _ => List.Pairwise.nil
  | a :: l, h =>
    List.Pairwise.cons
      (fun b hb => h a (List.mem_cons_self a l) b (List.mem_cons_of_mem a hb))
      (pairwiseOfForallMem l
        (fun x hx y hy => h x (List.mem_cons_of_mem a hx) y (List.mem_cons_of_mem a hy)))

theorem mem_copyOpsOf {root previewRoot : List String} {changes : List Change}
    {p : List String × List String} (h : p ∈ copyOpsOf root previewRoot changes) :
    ensure_inside previewRoot p.1 = true ∧ ensure_inside root p.2 = true := by
  rw [copyOpsOf, List.mem_filterMap] at h
  obtain ⟨ch, _hm, hch⟩ := h
  split at hch
  all_goals split at hch
  all_goals first
    | exact Option.noConfusion hch
    | (rename_i hg
       injection hch with hp
       subst hp
       simp only [Bool.and_eq_true] at hg
       exact ⟨hg.2.1, hg.2.2⟩)

theorem copies_before_deletes_aux (root previewRoot : List String) (changes : List Change)
    (srcExists : List String → Bool) (tail : List FsOp)
    (htail : ∀ op ∈ tail, FsOp.isCopy op = false) :
    (applyChangeSetOps root previewRoot changes srcExists ++ tail).Pairwise
      (fun a b => ¬(FsOp.isDeleteLive a = true ∧ FsOp.isCopy b = true)) := by
  rw [applyChangeSetOps, List.append_assoc, List.pairwise_append]
  refine ⟨?_, ?_, ?_⟩
  · refine pairwiseOfForallMem _ (fun a ha b hb => ?_)
    rw [List.mem_map] at ha
    obtain ⟨p, -, hpa⟩ := ha
    intro hcon
    rw [← hpa] at hcon
    simp [FsOp.isDeleteLive] at hcon
  · refine pairwiseOfForallMem _ (fun a ha b hb => ?_)
    intro hcon
    rw [List.mem_append] at hb
    cases hb with
    | inl hb2 =>
      rw [List.mem_map] at hb2
      obtain ⟨t, -, ht⟩ := hb2
      rw [← ht] at hcon
      simp [FsOp.isCopy] at hcon
    | inr hb2 =>
      have h2 := hcon.2
      rw [htail b hb2] at h2
      exact Bool.noConfusion h2
  · intro a ha b hb
    rw [List.mem_map] at ha
    obtain ⟨p, -, hpa⟩ := ha
    intro hcon
    rw [← hpa] at hcon
    simp [FsOp.isDeleteLive] at hcon

/-- C5: `apply_run_changes` returns `None` without a run row, without a
stored change set, or when the change set does not require confirmation,
and `discard_run_changes` has the same validity gate; a successful apply
performs every copy before every live-root deletion, copies only
preview-confined sources to root-confined destinations, removes the
preview workspace and marks the change set applied and the run done; a
successful discard performs no operation that writes the live root,
removes the preview workspace and marks the change set discarded and
the run cancelled. -/
theorem apply_discard_change_sets (root stashDir : List String) (runId : String)
    (cs : ChangeSetRec) (srcExists : List String → Bool) :
    (∀ cso, applyRunChanges root stashDir none cso srcExists = none) ∧
    applyRunChanges root stashDir (some runId) none srcExists = none ∧
    (∀ ro, discardRunChanges none ro = none) ∧
    discardRunChanges (some runId) none = none ∧
    (cs.requires_confirmation = false →
      applyRunChanges root stashDir (some runId) (some cs) srcExists = none ∧
      discardRunChanges (some runId) (some cs) = none) ∧
    (∀ ops, applyRunChanges root stashDir (some runId) (some cs) srcExists = some ops →
      ops.Pairwise (fun a b => ¬(FsOp.isDeleteLive a = true ∧ FsOp.isCopy b = true)) ∧
      (∀ src dest, FsOp.copy src dest ∈ ops →
        ∃ pr, cs.preview_path = some pr ∧
          ensure_inside (resolveComps pr) src = true ∧ ensure_inside root dest = true) ∧
      FsOp.removePreview ∈ ops ∧
      FsOp.setChangeSetStatus "applied" false ∈ ops ∧
      FsOp.setRunStatus "done" ∈ ops) ∧
    (∀ ops, discardRunChanges (some runId) (some cs) = some ops →
      (∀ op ∈ ops, FsOp.writesLive op = false) ∧
      FsOp.removePreview ∈ ops ∧
      FsOp.setChangeSetStatus "discarded" false ∈ ops ∧
      FsOp.setRunStatus "cancelled" ∈ ops) := by
  refine ⟨fun cso => rfl, rfl, fun ro => rfl, rfl, ?_, ?_, ?_⟩
  · intro hreq
    constructor
    · simp only [applyRunChanges]
      rw [hreq]
      rfl
    · simp only [discardRunChanges]
      rw [hreq]
      rfl
  · intro ops h
    obtain ⟨rc, pp, chs⟩ := cs
    cases rc with
    | false => simp [applyRunChanges] at h
    | true =>
      cases pp with
      | none => simp [applyRunChanges] at h
      | some pr =>
        simp only [applyRunChanges, Bool.not_true, Bool.false_eq_true, if_false] at h
        cases hei : ensure_inside stashDir pr with
        | false =>
          rw [hei] at h
          simp at h
        | true =>
          rw [hei] at h
          simp only [Bool.not_true, Bool.false_eq_true, if_false] at h
          injection h with h
          subst h
          refine ⟨copies_before_deletes_aux _ _ _ _ _ (by decide), ?_, ?_, ?_, ?_⟩
          · intro src dest hm
            rw [List.mem_append] at hm
            cases hm with
            | inr hc => simp at hc
            | inl hab =>
              rw [applyChangeSetOps, List.mem_append] at hab
              cases hab with
              | inr hbb =>
                rw [List.mem_map] at hbb
                obtain ⟨t, -, ht⟩ := hbb
                exact FsOp.noConfusion ht
              | inl haa =>
                rw [List.mem_map] at haa
                obtain ⟨p, hpf, hpc⟩ := haa
                have hmem := List.mem_of_mem_filter hpf
                have hin := mem_copyOpsOf hmem
                injection hpc with h1 h2
                exact ⟨pr, rfl, h1 ▸ hin.1, h2 ▸ hin.2⟩
          · exact List.mem_append_right _ (by decide)
          · exact List.mem_append_right _ (by decide)
          · exact List.mem_append_right _ (by decide)
  · intro ops h
    simp only [discardRunChanges] at h
    cases hrc : cs.requires_confirmation with
    | false =>
      rw [hrc] at h
      simp at h
    | true =>
      rw [hrc] at h
      simp only [Bool.not_true, Bool.false_eq_true, if_false] at h
      injection h with h
      subst h
      exact ⟨by decide, by decide, by decide, by decide⟩

/-- The stored change set of the C5 witness: confirmation required, a
preview path inside the stash directory, and an edit, a rename and a
deletion. -/
def applyWitnessCS : ChangeSetRec :=
  { requires_confirmation := true,
    preview_path := some ["root", ".stash", "previews", "run-1"],
    changes := [
      { type := "edit_file", path := "a.txt", source_path := "a.txt" },
      { type := "rename_file", path := "c.txt", from_path := some "b.txt",
        source_path := "c.txt" },
      { type := "delete_file", path := "old.txt" }] }

/-- The apply trace of the C5 witness: two copies, then the rename
source and the deleted file removed, then cleanup and bookkeeping. -/
def applyWitnessOps : List FsOp :=
  [FsOp.copy ["root", ".stash", "previews", "run-1", "a.txt"] ["root", "a.txt"],
   FsOp.copy ["root", ".stash", "previews", "run-1", "c.txt"] ["root", "c.txt"],
   FsOp.deleteLive ["root", "b.txt"], FsOp.deleteLive ["root", "old.txt"],
   FsOp.removePreview, FsOp.setChangeSetStatus "applied" false,
   FsOp.setRunStatus "done", FsOp.createMessage, FsOp.addEvent "run_applied",
   FsOp.addEvent "message_finalized", FsOp.addEvent "run_completed"]

/-- The discard trace of the C5 witness. -/
def discardWitnessOps : List FsOp :=
  [FsOp.removePreview, FsOp.setChangeSetStatus "discarded" false,
   FsOp.setRunStatus "cancelled", FsOp.createMessage, FsOp.addEvent "run_discarded",
   FsOp.addEvent "message_finalized", FsOp.addEvent "run_cancelled"]

/-- C5 witness: the concrete pending change set is applied with both
copies before both deletions and discarded without touching the live
root. -/
theorem apply_discard_change_sets_witness :
    applyRunChanges ["root"] ["root", ".stash"] (some "run-1") (some applyWitnessCS)
        (fun t => true) = some applyWitnessOps ∧
    applyWitnessOps.Pairwise
      (fun a b => ¬(FsOp.isDeleteLive a = true ∧ FsOp.isCopy b = true)) ∧
    FsOp.removePreview ∈ applyWitnessOps ∧
    FsOp.setChangeSetStatus "applied" false ∈ applyWitnessOps ∧
    FsOp.setRunStatus "done" ∈ applyWitnessOps ∧
    discardRunChanges (some "run-1") (some applyWitnessCS) = some discardWitnessOps ∧
    (∀ op ∈ discardWitnessOps, FsOp.writesLive op = false) ∧
    FsOp.removePreview ∈ discardWitnessOps ∧
    FsOp.setChangeSetStatus "discarded" false ∈ discardWitnessOps ∧
    FsOp.setRunStatus "cancelled" ∈ discardWitnessOps := by
  have heq : applyRunChanges ["root"] ["root", ".stash"] (some "run-1")
      (some applyWitnessCS) (fun t => true) = some applyWitnessOps := by decide
  have hd : discardRunChanges (some "run-1") (some applyWitnessCS)
      = some discardWitnessOps := by decide
  have H := apply_discard_change_sets ["root"] ["root", ".stash"] "run-1"
      applyWitnessCS (fun t => true)
  have HA := H.2.2.2.2.2.1 applyWitnessOps heq
  have HD := H.2.2.2.2.2.2 discardWitnessOps hd
  exact ⟨heq, HA.1, HA.2.2.1, HA.2.2.2.1, HA.2.2.2.2, hd, HD.1, HD.2.1, HD.2.2.1,
    HD.2.2.2⟩


/-! ## Run recovery at run start
(`RunOrchestrator.start_run`, `ProjectRepository.recover_orphaned_runs`,
`ProjectRepository.create_run`)

The runs, run_steps and events tables are lists of rows in `created_at`
order (the order the recovery query scans them in).  Run ids are
primary keys, so the per-orphan SQL `UPDATE runs ... WHERE id=?` and
`UPDATE run_steps ... WHERE run_id=? AND status='running'` statements,
iterated over the selected snapshot, touch exactly the rows a single
pass over the tables touches. -/

structure RunRow where
  id : String
  status : String
  output_summary : Option String := none
  error : Option String := none
  finished_at : Option String := none
deriving DecidableEq

structure StepRow where
  run_id : String
  status : String
  error : Option String := none
  finished_at : Option String := none
deriving DecidableEq

structure EventRow where
  type : String
  run_id : Option String := none
deriving DecidableEq

structure DBState where
  runs : List RunRow
  steps : List StepRow
  events : List EventRow

/-- The recovery reason (default argument of `recover_orphaned_runs`). -/
def RECOVERY_REASON : String := "Run interrupted before completion"

/-- Rows selected by the recovery query and not skipped: status pending
or running, `finished_at IS NULL`, id absent from the active-task
registry. -/
def isOrphanRow (activeIds : List String) (r : RunRow) : Bool :=
  (r.status = "pending" || r.status = "running")
    && r.finished_at.isNone && !(activeIds.contains r.id)

/-- The runs UPDATE of `recover_orphaned_runs`, with its COALESCEs. -/
def failOrphanRun (now : String) (r : RunRow) : RunRow :=
  { r with
    status := "failed",
    output_summary := some (r.output_summary.getD "Run interrupted"),
    error := some (r.error.getD RECOVERY_REASON),
    finished_at := some (r.finished_at.getD now) }

/-- The run_steps UPDATE: only steps still `running` are touched. -/
def failOrphanStep (now : String) (s : StepRow) : StepRow :=
  if s.status = "running" then
    { s with
      status := "failed",
      error := some (s.error.getD RECOVERY_REASON),
      finished_at := some (s.finished_at.getD now) }
  else s

/-- `recover_orphaned_runs`: fail every orphaned run and its running
steps, append one `run_recovered` event per orphan, and return the
recovered count. -/
def recoverOrphanedRuns (db : DBState) (activeIds : List String) (now : String) :
    DBState × Nat :=
  ({ runs := db.runs.map
       (fun r => if isOrphanRow activeIds r then failOrphanRun now r else r),
     steps := db.steps.map (fun s =>
       if ((db.runs.filter (isOrphanRow activeIds)).map RunRow.id).contains s.run_id then
         failOrphanStep now s
       else s),
     events := db.events ++ (db.runs.filter (isOrphanRow activeIds)).map
       (fun r => { type := "run_recovered", run_id := some r.id }) },
   (db.runs.filter (isOrphanRow activeIds)).length)

/-- `create_run`: insert a fresh pending, unfinished run row. -/
def createRun (db : DBState) (newId : String) : DBState × RunRow :=
  ({ db with runs := db.runs ++
      [{ id := newId, status := "pending", output_summary := none, error := none,
         finished_at := none }] },
   { id := newId, status := "pending", output_summary := none, error := none,
     finished_at := none })

/-- `start_run`: `recover_orphaned_runs` runs first, then `create_run`
appends the new run row to the recovered table. -/
def startRun (db : DBState) (activeIds : List String) (now newId : String) :
    DBState × RunRow :=
  createRun (recoverOrphanedRuns db activeIds now).1 newId


/-- C6: `start_run` first force-closes every run whose status is pending
or running, unfinished, and whose id is absent from the active-task
registry: that run becomes `failed` with error "Run interrupted before
completion" and a finish timestamp, its running steps become `failed`,
and a `run_recovered` event is appended; only then is the new run row
created, pending and last in the table. -/
theorem start_run_recovers_orphans (db : DBState) (activeIds : List String)
    (now newId : String) (r : RunRow) (hr : r ∈ db.runs)
    (hstatus : r.status = "pending" ∨ r.status = "running")
    (hfin : r.finished_at = none) (herr : r.error = none)
    (hactive : activeIds.contains r.id = false) :
    (∃ r2 ∈ (startRun db activeIds now newId).1.runs,
      r2.id = r.id ∧ r2.status = "failed" ∧
      r2.error = some RECOVERY_REASON ∧ r2.finished_at = some now) ∧
    ({ type := "run_recovered", run_id := some r.id } : EventRow)
      ∈ (startRun db activeIds now newId).1.events ∧
    (∀ s ∈ db.steps, s.run_id = r.id → s.status = "running" →
      ∃ s2 ∈ (startRun db activeIds now newId).1.steps,
        s2.run_id = r.id ∧ s2.status = "failed" ∧
        s2.error = some (s.error.getD RECOVERY_REASON) ∧
        s2.finished_at = some (s.finished_at.getD now)) ∧
    (startRun db activeIds now newId).2.status = "pending" ∧
    (startRun db activeIds now newId).1.runs.getLast? =
      some (startRun db activeIds now newId).2 := by
  have horph : isOrphanRow activeIds r = true := by
    rw [isOrphanRow, hfin, hactive]
    cases hstatus with
    | inl h => rw [h]; rfl
    | inr h => rw [h]; rfl
  refine ⟨?_, ?_, ?_, rfl, ?_⟩
  · refine ⟨failOrphanRun now r, ?_, rfl, rfl, ?_, ?_⟩
    · show failOrphanRun now r ∈
        (db.runs.map (fun x => if isOrphanRow activeIds x then failOrphanRun now x else x))
          ++ [{ id := newId, status := "pending", output_summary := none, error := none,
                finished_at := none }]
      apply List.mem_append_left
      rw [List.mem_map]
      exact ⟨r, hr, by rw [if_pos horph]⟩
    · rw [failOrphanRun]
      simp only [herr]
      rfl
    · rw [failOrphanRun]
      simp only [hfin]
      rfl
  · show ({ type := "run_recovered", run_id := some r.id } : EventRow) ∈
      db.events ++ (db.runs.filter (isOrphanRow activeIds)).map
        (fun x => { type := "run_recovered", run_id := some x.id })
    apply List.mem_append_right
    rw [List.mem_map]
    exact ⟨r, List.mem_filter.mpr ⟨hr, horph⟩, rfl⟩
  · intro s hs hsid hsrun
    have hidmem : s.run_id ∈ ((db.runs.filter (isOrphanRow activeIds)).map RunRow.id) := by
      rw [hsid, List.mem_map]
      exact ⟨r, List.mem_filter.mpr ⟨hr, horph⟩, rfl⟩
    have hcont : (((db.runs.filter (isOrphanRow activeIds)).map RunRow.id).contains
        s.run_id) = true := List.elem_iff.mpr hidmem
    refine ⟨failOrphanStep now s, ?_, ?_, ?_, ?_, ?_⟩
    · show failOrphanStep now s ∈ db.steps.map (fun x =>
        if ((db.runs.filter (isOrphanRow activeIds)).map RunRow.id).contains x.run_id then
          failOrphanStep now x
        else x)
      rw [List.mem_map]
      exact ⟨s, hs, by rw [hcont]; rfl⟩
    · rw [failOrphanStep, if_pos hsrun]
      exact hsid
    · rw [failOrphanStep, if_pos hsrun]
    · rw [failOrphanStep, if_pos hsrun]
    · rw [failOrphanStep, if_pos hsrun]
  · show ((db.runs.map (fun x => if isOrphanRow activeIds x then failOrphanRun now x else x))
        ++ [({ id := newId, status := "pending", output_summary := none, error := none,
               finished_at := none } : RunRow)]).getLast? =
      some ({ id := newId, status := "pending", output_summary := none, error := none,
              finished_at := none } : RunRow)
    exact List.getLast?_concat _

/-- C6 witness: starting a run over a database holding one unfinished
running run (with a running step) and an empty active registry fails
that run with the recovery reason, fails its step, emits the
`run_recovered` event and appends the new pending run last. -/
theorem start_run_recovers_orphans_witness :
    (∃ r2 ∈ (startRun
        { runs := [{ id := "run-0", status := "running" }],
          steps := [{ run_id := "run-0", status := "running" }], events := [] }
        [] "t1" "run-1").1.runs,
      r2.id = "run-0" ∧ r2.status = "failed" ∧
      r2.error = some RECOVERY_REASON ∧ r2.finished_at = some "t1") ∧
    ({ type := "run_recovered", run_id := some "run-0" } : EventRow)
      ∈ (startRun
        { runs := [{ id := "run-0", status := "running" }],
          steps := [{ run_id := "run-0", status := "running" }], events := [] }
        [] "t1" "run-1").1.events ∧
    (startRun
        { runs := [{ id := "run-0", status := "running" }],
          steps := [{ run_id := "run-0", status := "running" }], events := [] }
        [] "t1" "run-1").2.status = "pending" := by
  have H := start_run_recovers_orphans
      { runs := [{ id := "run-0", status := "running" }],
        steps := [{ run_id := "run-0", status := "running" }], events := [] }
      [] "t1" "run-1" { id := "run-0", status := "running" }
      (by decide) (Or.inr rfl) rfl rfl rfl
  exact ⟨H.1, H.2.1, H.2.2.2.1⟩

end Stash
